import Mathlib

/-!
# EventHub client script (`static/js/main.js`): a verification development

The script is browser glue: handlers that run on DOM events and timer
callbacks.  The embedding has three layers.

* `Timer`, `Loop`: the host timer queue (`setTimeout`, `clearTimeout`) and
  a punctual scheduler (`Loop.advance`) that fires every timer exactly at
  its due time, earliest first, registration order on ties.  A timer that is
  due at the very instant of an external call fires before that call.  The
  host reads a delay as a signed 32-bit integer (`hostDelay`), so a delay
  from 2^31 on is not honoured.  The page also has the steps `tick` and
  `fire`, with which a timer may run late.
* `Forest`: the document tree below `body` in first-child / next-sibling
  form, so that preorder is document order.  `html`, `head` and `body`
  themselves are taken to carry none of the ids and classes the script
  queries.  An element is a DOM object with an identity; `createElement`
  takes the next identity from a counter.
* one state type per script component, with the closure variables of the
  source (`timeout`, `inThrottle`, `searchTimeout`) as fields.

What the host or a caller decides is an input of the model: the result of
`form.checkValidity()`, the entries handed to the intersection observer, the
times of calls and events, the nodes the parser builds from the markup of a
toast, and whether a function passed to `throttle` returns or throws.  A
function passed to `debounce` or `throttle` is seen through the record of its
executions.  `console.log` lines, the tooltip and popover set-up, the
notification poller, `loadAnimations`, `formatDate` and `formatTime` are not
part of the model.

Time is in milliseconds and is a natural number.
-/

namespace EventHub

/-! ## Host timers -/

/-- One pending `setTimeout` registration: its handle, the instant it is
due, and the closure to run. -/
structure Timer (κ : Type) where
  id : Nat
  due : Nat
  cb : κ
deriving Repr, DecidableEq

/-- The event loop as seen by one component: the clock, the next timer
handle, the pending timers in registration order, and the component's own
state. -/
structure Loop (κ σ : Type) where
  now : Nat
  nextId : Nat
  pending : List (Timer κ)
  st : σ
deriving Repr

variable {κ σ α : Type}

/-- The delay the host acts on.  It converts the `delay` argument of
`setTimeout` to a signed 32-bit integer and takes a negative result as 0: a
delay below 2^31 is honoured, one from 2^31 up to 2^32 gives 0, and so on
modulo 2^32. -/
def hostDelay (delay : Nat) : Nat :=
  if delay % 4294967296 < 2147483648 then delay % 4294967296 else 0

/-- Host `setTimeout(cb, delay)`: registers the closure, due `hostDelay delay`
ms from now, and returns the new handle. -/
def Loop.setTimeout (L : Loop κ σ) (cb : κ) (delay : Nat) : Loop κ σ × Nat :=
  ({ L with nextId := L.nextId + 1,
            pending := L.pending ++ [⟨L.nextId, L.now + hostDelay delay, cb⟩] }, L.nextId)

/-- Host `clearTimeout(handle)`: `none` stands for `undefined`, for which the
host does nothing. -/
def Loop.clearTimeout (L : Loop κ σ) : Option Nat → Loop κ σ
  | none => L
  | some i => { L with pending := L.pending.filter (fun x => x.id != i) }

/-- The pending timer that fires next: least due time, the earlier
registration on a tie. -/
def earliest : List (Timer κ) → Option (Timer κ)
  | [] => none
  | tm :: rest =>
    match earliest rest with
    | none => some tm
    | some m => if tm.due ≤ m.due then some tm else some m

/-- The host runs one timer: it leaves the queue, the clock reaches its due
time, and the closure runs (`exec` interprets closures). -/
def Loop.fire (exec : κ → Loop κ σ → Loop κ σ) (tm : Timer κ) (L : Loop κ σ) : Loop κ σ :=
  exec tm.cb { L with now := max L.now tm.due,
                      pending := L.pending.filter (fun x => x.id != tm.id) }

/-- Fires, in order, the timers due at or before `t`; at most `fuel` of
them. -/
def Loop.runDue (exec : κ → Loop κ σ → Loop κ σ) : Nat → Nat → Loop κ σ → Loop κ σ
  | 0, _, L => L
  | fuel + 1, t, L =>
    match earliest L.pending with
    | none => L
    | some tm => if tm.due ≤ t then Loop.runDue exec fuel t (Loop.fire exec tm L) else L

/-- Lets time pass until `t`: due timers fire, then the clock reads `t`. -/
def Loop.advance (exec : κ → Loop κ σ → Loop κ σ) (fuel t : Nat) (L : Loop κ σ) : Loop κ σ :=
  let L1 := Loop.runDue exec fuel t L
  { L1 with now := max L1.now t }

/-- A timed series of external calls `(t, a)`: before each call time passes
until `t`, then the call runs. -/
def Loop.drive (adv : Nat → Loop κ σ → Loop κ σ) (call : α → Loop κ σ → Loop κ σ) :
    List (Nat × α) → Loop κ σ → Loop κ σ
  | [], L => L
  | (t, a) :: cs, L => Loop.drive adv call cs (call a (adv t L))

/-! ## `debounce` (source lines 252-262) -/

/-- Closure variables of one `debounce(func, wait)` wrapper: `timeout`, and
the record of the executions of `func` as (time, arguments). -/
structure DebounceSt (α : Type) where
  timeout : Option Nat
  executed : List (Nat × α)
deriving Repr

/-- The closure `later` of one wrapper call; it captures that call's
arguments. -/
inductive DebounceCb (α : Type) where
  | later (args : α)
deriving Repr, DecidableEq

/-- Body of `later`: `clearTimeout(timeout); func(...args)`. -/
def debounceExec : DebounceCb α → Loop (DebounceCb α) (DebounceSt α) → Loop (DebounceCb α) (DebounceSt α)
  | .later args, L =>
    let L1 := L.clearTimeout L.st.timeout
    { L1 with st := { L1.st with executed := L1.st.executed ++ [(L1.now, args)] } }

/-- Body of `executedFunction(...args)`:
`clearTimeout(timeout); timeout = setTimeout(later, wait)`. -/
def executedFunction (wait : Nat) (args : α)
    (L : Loop (DebounceCb α) (DebounceSt α)) : Loop (DebounceCb α) (DebounceSt α) :=
  let L1 := L.clearTimeout L.st.timeout
  let r := L1.setTimeout (.later args) wait
  { r.1 with st := { r.1.st with timeout := some r.2 } }

/-- State right after `debounce(func, wait)` returned: `timeout` is
`undefined`, nothing is pending, `func` has not run. -/
def debounce : Loop (DebounceCb α) (DebounceSt α) :=
  { now := 0, nextId := 1, pending := [], st := { timeout := none, executed := [] } }

/-- Time passes for a debounce wrapper.  `later` registers no timer, so one
unit of fuel per pending timer is enough (`debounceAdvance_quiet`). -/
def debounceAdvance (t : Nat) (L : Loop (DebounceCb α) (DebounceSt α)) :
    Loop (DebounceCb α) (DebounceSt α) :=
  Loop.advance debounceExec L.pending.length t L

/-- The calls `cs` reach the wrapper at their times, then time passes until
`T`. -/
def debounceRun (wait : Nat) (cs : List (Nat × α)) (T : Nat) : Loop (DebounceCb α) (DebounceSt α) :=
  debounceAdvance T (Loop.drive debounceAdvance (executedFunction wait) cs debounce)

/-! ## `throttle` (source lines 264-275) -/

/-- Closure variables of one `throttle(func, limit)` wrapper: `inThrottle`
(`undefined` reads as false), and the record of the executions of `func` as
(time, arguments). -/
structure ThrottleSt (α : Type) where
  inThrottle : Bool
  executed : List (Nat × α)
deriving Repr

/-- The only closure a throttle wrapper registers: `() => inThrottle = false`. -/
inductive ThrottleCb where
  | reset
deriving Repr, DecidableEq

/-- Body of the timer closure: `inThrottle = false`. -/
def throttleExec : ThrottleCb → Loop ThrottleCb (ThrottleSt α) → Loop ThrottleCb (ThrottleSt α)
  | .reset, L => { L with st := { L.st with inThrottle := false } }

/-- Body of the wrapper returned by `throttle`, for one call with arguments
`call.1`:
`if (!inThrottle) { func.apply(context, args); inThrottle = true;
setTimeout(() => inThrottle = false, limit); }`.
`call.2` says how `func.apply` ends on this call: `false` when it returns,
`true` when it throws.  An exception leaves the wrapper before
`inThrottle = true` and `setTimeout` are reached. -/
def throttled (limit : Nat) (call : α × Bool)
    (L : Loop ThrottleCb (ThrottleSt α)) : Loop ThrottleCb (ThrottleSt α) :=
  if !L.st.inThrottle then
    let L1 := { L with st := { L.st with executed := L.st.executed ++ [(L.now, call.1)] } }
    if call.2 then L1
    else
      let L2 := { L1 with st := { L1.st with inThrottle := true } }
      (L2.setTimeout .reset limit).1
  else L

/-- State right after `throttle(func, limit)` returned. -/
def throttle : Loop ThrottleCb (ThrottleSt α) :=
  { now := 0, nextId := 1, pending := [], st := { inThrottle := false, executed := [] } }

/-- Time passes for a throttle wrapper; the closure registers no timer, so
one unit of fuel per pending timer is enough (`throttleAdvance_quiet`). -/
def throttleAdvance (t : Nat) (L : Loop ThrottleCb (ThrottleSt α)) : Loop ThrottleCb (ThrottleSt α) :=
  Loop.advance throttleExec L.pending.length t L

/-- The calls `cs`, each a time, the arguments, and whether `func` throws on
it, reach the wrapper at their times. -/
def throttleRun (limit : Nat) (cs : List (Nat × α × Bool)) : Loop ThrottleCb (ThrottleSt α) :=
  Loop.drive throttleAdvance (throttled limit) cs throttle

/-- A call as the record of executions shows it: its time and arguments. -/
def callRecord (c : Nat × α × Bool) : Nat × α :=
  (c.1, c.2.1)

/-! ## Document tree -/

/-- One element.  `nid` is the identity of the DOM object.  `id` is the id
attribute (empty when absent), `classes` the tokens of the class attribute,
`html` the markup assigned to `innerHTML`.  The nodes the host parses from
that markup are the element's children in the tree when the markup comes from
a caller (the toast); for the loading overlay, whose markup is a constant
without ids and without the classes the script queries, they are left out. -/
structure Elem where
  nid : Nat
  tag : String
  id : String
  classes : List String
  src : Option String
  dataSrc : Option String
  zIndex : String
  html : String
deriving Repr, DecidableEq

/-- The element trees below `body`, as first child and next sibling: preorder
of this type is document order. -/
inductive Forest where
  | nil
  | node (e : Elem) (kids : Forest) (next : Forest)
deriving Repr, DecidableEq

/-- Siblings `g` placed after the siblings `f`. -/
def Forest.append : Forest → Forest → Forest
  | .nil, g => g
  | .node e k n, g => .node e k (n.append g)

/-- Number of elements, at any depth, that satisfy `p`. -/
def Forest.count (p : Elem → Bool) : Forest → Nat
  | .nil => 0
  | .node e k n => (if p e then 1 else 0) + k.count p + n.count p

/-- Some element, at any depth, satisfies `p`. -/
def Forest.any (p : Elem → Bool) : Forest → Bool
  | .nil => false
  | .node e k n => p e || k.any p || n.any p

/-- First element in document order that satisfies `p`: the result of
`querySelector` / `getElementById`, `none` for `null`. -/
def Forest.first (p : Elem → Bool) : Forest → Option Elem
  | .nil => none
  | .node e k n =>
    if p e then some e else
    match k.first p with
    | some x => some x
    | none => n.first p

/-- The first element in document order that satisfies `p` leaves the tree
with all its descendants (`el.remove()` on that element); nothing changes
when there is none. -/
def Forest.removeFirst (p : Elem → Bool) : Forest → Forest
  | .nil => .nil
  | .node e k n =>
    if p e then n
    else if k.any p then .node e (k.removeFirst p) n
    else .node e k (n.removeFirst p)

/-- The trees `c` become the last children of the first element in document
order that satisfies `p` (`el.appendChild(c)` on that element). -/
def Forest.appendChildTo (p : Elem → Bool) (c : Forest) : Forest → Forest
  | .nil => .nil
  | .node e k n =>
    if p e then .node e (k.append c) n
    else if k.any p then .node e (Forest.appendChildTo p c k) n
    else .node e k (Forest.appendChildTo p c n)

/-- The first element in document order that satisfies `p` is replaced by
`f` of it (a property write on that element). -/
def Forest.modifyFirst (p : Elem → Bool) (f : Elem → Elem) : Forest → Forest
  | .nil => .nil
  | .node e k n =>
    if p e then .node (f e) k n
    else if k.any p then .node e (k.modifyFirst p f) n
    else .node e k (n.modifyFirst p f)

/-- Children of the first element in document order that satisfies `p`. -/
def Forest.kidsOf (p : Elem → Bool) : Forest → Option Forest
  | .nil => none
  | .node e k n =>
    if p e then some k else
    match k.kidsOf p with
    | some x => some x
    | none => n.kidsOf p

/-- All elements in document order. -/
def Forest.elems : Forest → List Elem
  | .nil => []
  | .node e k n => e :: (k.elems ++ n.elems)

/-- The tree with new identities `n`, `n + 1`, ... given to its elements in
document order, and the next unused identity. -/
def Forest.relabel : Forest → Nat → Forest × Nat
  | .nil, n => (.nil, n)
  | .node e k s, n =>
    let rk := k.relabel (n + 1)
    let rs := s.relabel rk.2
    (.node { e with nid := n } rk.1 rs.1, rs.2)

/-- ASCII whitespace, the separators of a class attribute. -/
def isAsciiWhitespace (c : Char) : Bool :=
  c == ' ' || c == '\t' || c == '\n' || c == '\x0c' || c == '\r'

/-- Splits at ASCII whitespace; `cur` is the token being read, reversed. -/
def tokensAux : List Char → List Char → List String
  | [], cur => if cur.isEmpty then [] else [String.mk cur.reverse]
  | c :: cs, cur =>
    if isAsciiWhitespace c then
      (if cur.isEmpty then tokensAux cs [] else String.mk cur.reverse :: tokensAux cs [])
    else tokensAux cs (c :: cur)

/-- Keeps the first occurrence of every token. -/
def orderedSet : List String → List String
  | [] => []
  | x :: xs => x :: (orderedSet xs).filter (fun y => y != x)

/-- The class tokens of the string assigned to `className`. -/
def classTokens (s : String) : List String :=
  orderedSet (tokensAux s.toList [])

/-- Element test of the selector `.c`. -/
def hasClass (c : String) (e : Elem) : Bool :=
  e.classes.contains c

/-- Element test of `getElementById(i)`. -/
def hasId (i : String) (e : Elem) : Bool :=
  e.id == i

/-- Element test for one DOM object. -/
def isNode (n : Nat) (e : Elem) : Bool :=
  e.nid == n

/-- Result of `document.createElement(tag)` with identity `n`. -/
def createElement (n : Nat) (tag : String) : Elem :=
  { nid := n, tag := tag, id := "", classes := [], src := none, dataSrc := none,
    zIndex := "", html := "" }

/-- Value of `String.prototype.length`: the number of UTF-16 code units. -/
def jsLength (s : String) : Nat :=
  s.toList.foldl (fun n c => n + (if c.val < 0x10000 then 1 else 2)) 0

/-! ## The page: search field, loading overlay, toasts
(source lines 74-103 and 182-232) -/

/-- The timer closures of the page. -/
inductive PageCb where
  /-- Closure `() => { performSearch(this.value); }`, registered by the input
  listener of `setupSearch`. -/
  | search
  /-- Closure `() => { hideLoadingState(); }`, registered by `performSearch`. -/
  | hide
  /-- Closure `() => { toast.remove(); }`, registered by `showToast`; it
  captures the toast element. -/
  | removeToast (toast : Nat)
deriving Repr, DecidableEq

/-- State of the page: the document, the identity of the next created
element, the closure variable `searchTimeout` of `setupSearch`, the value of
the `#search` field, and the record of the calls `performSearch(this.value)`
made by the search timer as (time, query). -/
structure PageSt where
  doc : Forest
  nextNid : Nat
  searchTimeout : Option Nat
  searchValue : String
  searched : List (Nat × String)
deriving Repr

/-- The page with its timer queue. -/
abbrev Page := Loop PageCb PageSt

/-- Markup that `showLoadingState` assigns to `innerHTML`. -/
def spinnerHtml : String :=
  "<div class=\"loading-spinner\"><div class=\"spinner-border text-primary\" role=\"status\">" ++
  "<span class=\"visually-hidden\">Loading...</span></div></div>"

/-- Markup that `showToast` assigns to `innerHTML`. -/
def toastHtml (message : String) : String :=
  "<div class=\"toast-body\">" ++ message ++
  "<button type=\"button\" class=\"btn-close btn-close-white ms-2\" data-bs-dismiss=\"toast\">" ++
  "</button></div>"

/-- The element that `showLoadingState` builds, with identity `n`. -/
def overlayElem (n : Nat) : Elem :=
  { createElement n "div" with classes := classTokens "loading-overlay", html := spinnerHtml }

/-- Function `showLoadingState()`: a new `div` with class `loading-overlay` becomes
the last child of `body`.  The document is not queried. -/
def showLoadingState (s : Page) : Page :=
  { s with st := { s.st with
      nextNid := s.st.nextNid + 1,
      doc := s.st.doc.append (.node (overlayElem s.st.nextNid) .nil .nil) } }

/-- Function `hideLoadingState()`: `querySelector('.loading-overlay')`, and when it
found an element, that element is removed. -/
def hideLoadingState (s : Page) : Page :=
  match s.st.doc.first (hasClass "loading-overlay") with
  | some _ => { s with st := { s.st with
      doc := s.st.doc.removeFirst (hasClass "loading-overlay") } }
  | none => s

/-- Function `performSearch(query)`: returns at once when `query.length < 2`;
otherwise `showLoadingState()` and `setTimeout(() => hideLoadingState(), 500)`.
(The `console.log` line has no effect on the page and is left out.) -/
def performSearch (query : String) (s : Page) : Page :=
  if jsLength query < 2 then s
  else ((showLoadingState s).setTimeout .hide 500).1

/-- The element that `createToastContainer` builds, with identity `n`. -/
def containerElem (n : Nat) : Elem :=
  { createElement n "div" with
      id := "toast-container",
      classes := classTokens "toast-container position-fixed top-0 end-0 p-3",
      zIndex := "9999" }

/-- Function `createToastContainer()`: a new `div` with id `toast-container` becomes
the last child of `body`. -/
def createToastContainer (s : Page) : Page :=
  { s with st := { s.st with
      nextNid := s.st.nextNid + 1,
      doc := s.st.doc.append (.node (containerElem s.st.nextNid) .nil .nil) } }

/-- The element that `showToast` builds, with identity `n`. -/
def toastElem (n : Nat) (message type : String) : Elem :=
  { createElement n "div" with
      classes := classTokens ("toast show bg-" ++ type ++ " text-white"),
      html := toastHtml message }

/-- The page once `getElementById('toast-container') || createToastContainer()`
has been evaluated. -/
def ensureToastContainer (s : Page) : Page :=
  match s.st.doc.first (hasId "toast-container") with
  | some _ => s
  | none => createToastContainer s

/-- The children the toast gets from `toast.innerHTML = ...`: the trees
`content` that the host's parser builds from the markup, as new objects with
identities from `n` on. -/
def toastKids (content : Forest) (n : Nat) : Forest × Nat :=
  content.relabel n

/-- Function `showToast(message, type = 'info', duration = 5000)`; `none` is an
omitted argument.  The container is the first element with id
`toast-container`, found or just created; the toast, with the children parsed
from its markup, becomes its last child; a timer that removes the toast is
registered with delay `duration`.  `content` is what the host's parser builds
from `toastHtml message`; the parser is the host's, so its result is an input
here. -/
def showToast (message : String) (type : Option String) (duration : Option Nat)
    (content : Forest) (s : Page) : Page :=
  let s1 := ensureToastContainer s
  let toast := toastElem s1.st.nextNid message (type.getD "info")
  let kids := toastKids content (s1.st.nextNid + 1)
  let s2 : Page := { s1 with st := { s1.st with
      nextNid := kids.2,
      doc := Forest.appendChildTo (hasId "toast-container") (.node toast kids.1 .nil)
        s1.st.doc } }
  (s2.setTimeout (.removeToast toast.nid) (duration.getD 5000)).1

/-- The call `performSearch(query)` as the search timer's closure makes it:
the call is noted in `searched` with the argument it passes, and
`performSearch` runs with that argument. -/
def searchCall (query : String) (s : Page) : Page :=
  performSearch query
    { s with st := { s.st with searched := s.st.searched ++ [(s.now, query)] } }

/-- Bodies of the page's timer closures. -/
def pageExec : PageCb → Page → Page
  | .search, s => searchCall s.st.searchValue s
  | .hide, s => hideLoadingState s
  | .removeToast n, s => { s with st := { s.st with doc := s.st.doc.removeFirst (isNode n) } }

/-- The `input` listener of `setupSearch`:
`clearTimeout(searchTimeout); searchTimeout = setTimeout(() => ..., 300)`. -/
def onSearchInput (s : Page) : Page :=
  let s1 := s.clearTimeout s.st.searchTimeout
  let r := s1.setTimeout .search 300
  { r.1 with st := { r.1.st with searchTimeout := some r.2 } }

/-- What can happen to the page.  `tick` lets time pass; `fire` is the host
running a pending timer, which it does no earlier than the timer is due;
`input` is the user editing `#search` (the value changes and the listener
runs); `assign` is a write to `#search.value` by a script, which dispatches no
event; the others are calls of the script's functions, `showToast` with the
parse result of its markup as last argument. -/
inductive PageOp where
  | tick (dt : Nat)
  | fire (id : Nat)
  | input (value : String)
  | assign (value : String)
  | performSearch (query : String)
  | showLoadingState
  | hideLoadingState
  | showToast (message : String) (type : Option String) (duration : Option Nat)
      (content : Forest)
deriving Repr, DecidableEq

/-- Effect of one `PageOp`. -/
def Page.step : PageOp → Page → Page
  | .tick dt, s => { s with now := s.now + dt }
  | .fire id, s =>
    match s.pending.find? (fun tm => tm.id == id) with
    | some tm => if tm.due ≤ s.now then Loop.fire pageExec tm s else s
    | none => s
  | .input v, s => onSearchInput { s with st := { s.st with searchValue := v } }
  | .assign v, s => { s with st := { s.st with searchValue := v } }
  | .performSearch q, s => performSearch q s
  | .showLoadingState, s => showLoadingState s
  | .hideLoadingState, s => hideLoadingState s
  | .showToast m t d c, s => showToast m t d c s

/-- Effect of a series of `PageOp`s. -/
def Page.run : List PageOp → Page → Page
  | [], s => s
  | op :: ops, s => Page.run ops (Page.step op s)

/-- Every `PageOp` of the series satisfies `ok` in the state it meets. -/
def Page.Admits (ok : Page → PageOp → Prop) : List PageOp → Page → Prop
  | [], _ => True
  | op :: ops, s => ok s op ∧ Page.Admits ok ops (Page.step op s)

/-- Time passes on the page with punctual timers.  Only the search closure
registers a timer, and that timer registers none, so two units of fuel per
pending timer are enough (`pageAdvance_quiet`). -/
def pageAdvance (t : Nat) (s : Page) : Page :=
  Loop.advance pageExec (2 * s.pending.length) t s

/-- Number of `.loading-overlay` elements in the document. -/
def overlayCount (s : Page) : Nat :=
  s.st.doc.count (hasClass "loading-overlay")

/-- Number of pending timers that will call `hideLoadingState`. -/
def hideTimers (s : Page) : Nat :=
  (s.pending.filter (fun tm => tm.cb == PageCb.hide)).length

/-- Number of pending timers that will call `performSearch`. -/
def searchTimers (s : Page) : Nat :=
  (s.pending.filter (fun tm => tm.cb == PageCb.search)).length

/-- A page just loaded: document `doc`, clock at 0, no timer, `#search`
holding `value`; `fresh` is the identity of the next created element. -/
def Page.init (doc : Forest) (fresh : Nat) (value : String) : Page :=
  { now := 0, nextId := 1, pending := [],
    st := { doc := doc, nextNid := fresh, searchTimeout := none, searchValue := value,
            searched := [] } }

/-- The tree with `f` applied to every element. -/
def Forest.map (f : Elem → Elem) : Forest → Forest
  | .nil => .nil
  | .node e k n => .node (f e) (k.map f) (n.map f)

/-- Result of `classList.add(c)` on an element. -/
def classListAdd (c : String) (e : Elem) : Elem :=
  if e.classes.contains c then e else { e with classes := e.classes ++ [c] }

/-- Result of `classList.remove(c)` on an element. -/
def classListRemove (c : String) (e : Elem) : Elem :=
  { e with classes := e.classes.filter (fun x => x != c) }

/-- Methods of an event object that the handlers call. -/
inductive EventCall where
  | preventDefault
  | stopPropagation
deriving Repr, DecidableEq

/-! ## Form validation (source lines 59-71) -/

/-- What the submit listener touches: the document, and the event it was
handed, kept as the list of the method calls made on it so far. -/
structure SubmitSt where
  doc : Forest
  event : List EventCall
deriving Repr, DecidableEq

/-- The submit listener that `setupFormValidation` puts on the form with
identity `form`.  `valid` is what the host's `form.checkValidity()` returns.
`if (!form.checkValidity()) { event.preventDefault(); event.stopPropagation(); }
form.classList.add('was-validated');` -/
def onSubmit (form : Nat) (valid : Bool) (s : SubmitSt) : SubmitSt :=
  let ev := if !valid then s.event ++ [.preventDefault, .stopPropagation] else s.event
  { doc := s.doc.modifyFirst (isNode form) (classListAdd "was-validated"), event := ev }

/-! ## Smooth scrolling (source lines 131-144) -/

/-- May start a CSS identifier: a letter, `_`, or a non-ASCII character. -/
def isNameStart (c : Char) : Bool :=
  c.isAlpha || c == '_' || decide (0x80 ≤ c.val)

/-- May continue a CSS identifier. -/
def isNameChar (c : Char) : Bool :=
  isNameStart c || c.isDigit || c == '-'

/-- The characters start a CSS identifier. -/
def startsIdent : List Char → Bool
  | c :: d :: _ => isNameStart c || (c == '-' && (isNameStart d || d == '-'))
  | [c] => isNameStart c
  | [] => false

/-- What `document.querySelector(sel)` does. -/
inductive Query where
  /-- It returns the first matching element. -/
  | found (e : Elem)
  /-- It returns `null`. -/
  | null
  /-- It throws a `SyntaxError` `DOMException`: `sel` is not a valid selector. -/
  | syntaxError
  /-- Selector `sel` is outside the fragment of CSS this development reads. -/
  | unread
deriving Repr, DecidableEq

/-- Host `document.querySelector(sel)` for the selectors that an in-page
`href` produces, read as far as an id selector: `#` followed by name
characters only.  Such a selector is valid exactly when the name starts an
identifier, and then selects by id; `#` with nothing after it, and `#`
followed by a digit, are syntax errors.  Every other string (escapes,
compound and complex selectors) is reported as `unread`. -/
def querySelector (sel : String) (doc : Forest) : Query :=
  match sel.toList with
  | '#' :: name =>
    if name.all isNameChar then
      if startsIdent name then
        match doc.first (hasId (String.mk name)) with
        | some e => .found e
        | none => .null
      else .syntaxError
    else .unread
  | _ => .unread

/-- What the click listener touches: the event, as the list of method calls
made on it; the calls of `scrollIntoView({behavior, block})` made so far, as
(target, behavior, block); and whether the listener ended by an uncaught
exception. -/
structure ClickSt where
  event : List EventCall
  scrolls : List (Nat × String × String)
  uncaught : Bool
deriving Repr, DecidableEq

/-- The click listener that `setupSmoothScrolling` puts on an anchor whose
`href` attribute is `href`:
`e.preventDefault(); const target = document.querySelector(href);
if (target) target.scrollIntoView({behavior: 'smooth', block: 'start'});`
The result is `none` when the selector is outside the fragment that
`querySelector` reads. -/
def onAnchorClick (href : String) (doc : Forest) (s : ClickSt) : Option ClickSt :=
  let s1 := { s with event := s.event ++ [.preventDefault] }
  match querySelector href doc with
  | .found target => some { s1 with scrolls := s1.scrolls ++ [(target.nid, "smooth", "start")] }
  | .null => some s1
  | .syntaxError => some { s1 with uncaught := true }
  | .unread => none

/-! ## Lazy loading of images (source lines 147-162) -/

/-- An `IntersectionObserverEntry`, as far as the callback reads it. -/
structure Entry where
  target : Nat
  isIntersecting : Bool
deriving Repr, DecidableEq

/-- The document and the targets that `imageObserver` observes. -/
structure LazySt where
  doc : Forest
  observed : List Nat
deriving Repr, DecidableEq

/-- The writes `img.src = img.dataset.src; img.classList.remove('lazy')`.
An absent `data-src` reads as `undefined`, which the `src` setter stores as
the string "undefined". -/
def loadImage (img : Elem) : Elem :=
  classListRemove "lazy" { img with src := some (img.dataSrc.getD "undefined") }

/-- Body of the callback's `forEach` for one entry. -/
def lazyEntry (entry : Entry) (s : LazySt) : LazySt :=
  if entry.isIntersecting then
    { doc := s.doc.modifyFirst (isNode entry.target) loadImage,
      observed := s.observed.filter (fun n => n != entry.target) }
  else s

/-- The observer callback on one batch of entries. -/
def lazyCallback (entries : List Entry) (s : LazySt) : LazySt :=
  entries.foldl (fun s entry => lazyEntry entry s) s

/-- Function `setupLazyLoading()`: every `img[data-src]` of the document is
observed. -/
def setupLazyLoading (doc : Forest) : LazySt :=
  { doc := doc,
    observed := (doc.elems.filter (fun e => e.tag == "img" && e.dataSrc.isSome)).map
      (fun e => e.nid) }

/-! ## Specification predicates -/

/-- No pending timer is due at or before `t`. -/
def Loop.Quiet (t : Nat) (L : Loop κ σ) : Prop :=
  ∀ tm ∈ L.pending, t < tm.due

/-- What holds of a debounce wrapper between calls: nothing is pending, or
one `later` is, and `timeout` holds its handle. -/
def DebounceInv (L : Loop (DebounceCb α) (DebounceSt α)) : Prop :=
  L.pending = [] ∨ ∃ tm, L.pending = [tm] ∧ L.st.timeout = some tm.id

/-- A debounce wrapper whose last call came at `t` with arguments `a`: that
call's `later` is the only pending timer, due at `t + wait`, `timeout` holds
its handle, and the executions of `func` so far are `E`. -/
def Armed (wait t : Nat) (a : α) (E : List (Nat × α))
    (L : Loop (DebounceCb α) (DebounceSt α)) : Prop :=
  L.now = t ∧ L.st.executed = E ∧
    ∃ i, L.pending = [⟨i, t + wait, .later a⟩] ∧ L.st.timeout = some i

/-- Successive calls of a burst: strictly later, and less than `wait` ms
after the previous one. -/
def Burst (wait : Nat) (p q : Nat × α) : Prop :=
  p.1 < q.1 ∧ q.1 < p.1 + wait

/-- Two executions at least `limit` ms apart. -/
def Spaced (limit : Nat) (p q : Nat × α) : Prop :=
  p.1 + limit ≤ q.1

/-- What holds of a throttle wrapper between calls: the executions are
spaced; either the wrapper is open, nothing is pending and every execution
is at least `limit` ms old, or it is closed, the last execution was at some
`e` less than `limit` ms ago and the one pending timer reopens it at
`e + limit`. -/
def ThrottleInv (limit : Nat) (L : Loop ThrottleCb (ThrottleSt α)) : Prop :=
  L.st.executed.Pairwise (Spaced limit) ∧
  ((L.st.inThrottle = false ∧ L.pending = [] ∧ ∀ p ∈ L.st.executed, p.1 + limit ≤ L.now) ∨
   (L.st.inThrottle = true ∧ ∃ i e a rest, L.pending = [⟨i, e + limit, .reset⟩] ∧
      L.st.executed = rest ++ [(e, a)] ∧ e ≤ L.now ∧ L.now < e + limit))

/-- No element that satisfies `p` has a descendant that satisfies `p`. -/
def Forest.Flat (p : Elem → Bool) : Forest → Prop
  | .nil => True
  | .node e k n => (p e = true → k.count p = 0) ∧ k.Flat p ∧ n.Flat p

/-- The operations of the search path alone: time passing, calls of
`performSearch`, and the host running a timer whose closure calls
`hideLoadingState`. -/
def searchOnly (s : Page) : PageOp → Prop
  | .tick _ => True
  | .performSearch _ => True
  | .fire id => ∀ tm, s.pending.find? (fun tm => tm.id == id) = some tm → tm.cb = PageCb.hide
  | _ => False

/-- An operation that adds an overlay meets a document without one. -/
def notStacked (s : Page) (op : PageOp) : Prop :=
  overlayCount s < overlayCount (Page.step op s) → overlayCount s = 0

/-- What the search path keeps true: as many overlays as pending hide
timers; no overlay inside another; the hide timers have distinct handles,
all below the next handle. -/
def Balanced (s : Page) : Prop :=
  overlayCount s = hideTimers s ∧
  s.st.doc.Flat (hasClass "loading-overlay") ∧
  ((s.pending.filter (fun tm => tm.cb == PageCb.hide)).map (fun tm => tm.id)).Nodup ∧
  ∀ tm ∈ s.pending, tm.cb = PageCb.hide → tm.id < s.nextId

/-- The operations the loading overlay is subject to: time passing, calls of
`performSearch`, `showLoadingState` and `hideLoadingState`, and the host
running a timer whose closure calls `hideLoadingState`. -/
def overlayOnly (s : Page) : PageOp → Prop
  | .tick _ => True
  | .performSearch _ => True
  | .showLoadingState => True
  | .hideLoadingState => True
  | .fire id => ∀ tm, s.pending.find? (fun tm => tm.id == id) = some tm → tm.cb = PageCb.hide
  | _ => False

/-- Calls `performSearch(q)` at the times given, with punctual timers. -/
def searchCalls (cs : List (Nat × String)) (s : Page) : Page :=
  Loop.drive pageAdvance performSearch cs s

/-- Between searches that are at least 500 ms apart: the page is balanced,
and at most one timer is pending, a hide timer due no later than `b`. -/
def Settling (b : Nat) (s : Page) : Prop :=
  Balanced s ∧ s.pending.length ≤ 1 ∧ s.now ≤ b ∧
  ∀ tm ∈ s.pending, tm.cb = PageCb.hide ∧ tm.due ≤ b

/-- Number of timer firings a closure can cause: itself, and for the search
closure the hide timer it may register. -/
def cbRank : PageCb → Nat
  | .search => 2
  | _ => 1

/-- Bound on the timer firings still to come from the pending timers. -/
def pageMeasure (s : Page) : Nat :=
  (s.pending.map (fun tm => cbRank tm.cb)).sum

/-- The timer handles of the page are distinct and below the next handle. -/
def TimersFresh (s : Page) : Prop :=
  (s.pending.map (fun tm => tm.id)).Nodup ∧ ∀ tm ∈ s.pending, tm.id < s.nextId

/-- Page `s2` has the timers of `s`, or those and one more, registered
last under the next handle of `s`. -/
def Pushes (s s2 : Page) : Prop :=
  (s2.pending = s.pending ∧ s2.nextId = s.nextId) ∨
  ∃ d cb, s2.pending = s.pending ++ [⟨s.nextId, d, cb⟩] ∧ s2.nextId = s.nextId + 1

/-- The pending search timers: none, or one whose handle `searchTimeout`
holds. -/
def SearchSingle (s : Page) : Prop :=
  s.pending.filter (fun tm => tm.cb == PageCb.search) = [] ∨
  ∃ tm, s.pending.filter (fun tm => tm.cb == PageCb.search) = [tm] ∧
    s.st.searchTimeout = some tm.id

/-- A page whose last input event came at `t`: the search timer of that
event, due at `t + 300`, is the only pending search timer, `searchTimeout`
holds its handle, and the calls of `performSearch` made by search timers so
far are `E`. -/
def SearchArmed (t : Nat) (E : List (Nat × String)) (s : Page) : Prop :=
  s.now = t ∧ TimersFresh s ∧ s.st.searched = E ∧
    ∃ i, s.pending.filter (fun tm => tm.cb == PageCb.search) = [⟨i, t + 300, PageCb.search⟩] ∧
      s.st.searchTimeout = some i

/-- Input events `(t, v)` reach the `#search` field at their times: at `t`
the user leaves the value `v` in the field and the listener runs. -/
def searchInputs (cs : List (Nat × String)) (s : Page) : Page :=
  Loop.drive pageAdvance (fun v s => Page.step (.input v) s) cs s

/-- Every element of the document is an object created before now: its
identity is below the identity of the next created element. -/
def Page.FreshNids (s : Page) : Prop :=
  ∀ e ∈ s.st.doc.elems, e.nid < s.st.nextNid

/-- The toast element that `showToast(message, type)` builds on page `s`. -/
def toastOf (message : String) (type : Option String) (s : Page) : Elem :=
  toastElem (ensureToastContainer s).st.nextNid message (type.getD "info")

/-- The timer that `showToast(message, type, duration)` registers on page
`s`. -/
def toastTimer (message : String) (type : Option String) (duration : Option Nat)
    (s : Page) : Timer PageCb :=
  ⟨s.nextId, s.now + duration.getD 5000, PageCb.removeToast (toastOf message type s).nid⟩

/-- The toast that `showToast(message, type)` builds on page `s`, with the
children parsed from its markup. -/
def toastTree (message : String) (type : Option String) (content : Forest) (s : Page) :
    Forest :=
  .node (toastOf message type s)
    (toastKids content ((ensureToastContainer s).st.nextNid + 1)).1 .nil

/-- Page `s2` comes after page `s`: its elements are elements of `s` or
objects created since, and no object of `s` occurs more often than in `s`. -/
def Page.Extends (s s2 : Page) : Prop :=
  s.st.nextNid ≤ s2.st.nextNid ∧
  (∀ e ∈ s2.st.doc.elems,
    e ∈ s.st.doc.elems ∨ (s.st.nextNid ≤ e.nid ∧ e.nid < s2.st.nextNid)) ∧
  (∀ m, m < s.st.nextNid → s2.st.doc.count (isNode m) ≤ s.st.doc.count (isNode m))

/-- The object `n` occurs at most once in the document of `s`, and where it
occurs it is the element `toast`. -/
def KeepsToast (n : Nat) (toast : Elem) (s : Page) : Prop :=
  s.FreshNids ∧ n < s.st.nextNid ∧ s.st.doc.count (isNode n) ≤ 1 ∧
  ∀ e ∈ s.st.doc.elems, e.nid = n → e = toast

/-! # Theorems -/

/-! ## Timer queue -/

theorem hostDelay_of_lt {d : Nat} (h : d < 2147483648) : hostDelay d = d := by
  have h1 : d % 4294967296 = d := Nat.mod_eq_of_lt (by omega)
  simp [hostDelay, h1, h]

theorem hostDelay_500 : hostDelay 500 = 500 := by decide

theorem hostDelay_300 : hostDelay 300 = 300 := by decide

theorem earliest_eq_none {l : List (Timer κ)} : earliest l = none ↔ l = [] := by
  cases l with
  | nil => simp [earliest]
  | cons tm rest =>
    simp only [earliest]
    cases earliest rest with
    | none => simp
    | some m => by_cases h : tm.due ≤ m.due <;> simp [h]

theorem earliest_mem : ∀ {l : List (Timer κ)} {tm : Timer κ}, earliest l = some tm → tm ∈ l
  | [], _, h => by simp [earliest] at h
  | x :: rest, tm, h => by
    simp only [earliest] at h
    cases hr : earliest rest with
    | none => rw [hr] at h; simp at h; simp [h]
    | some m =>
      rw [hr] at h
      by_cases hle : x.due ≤ m.due
      · simp [hle] at h; simp [h]
      · simp [hle] at h; subst h; exact List.mem_cons_of_mem _ (earliest_mem hr)

theorem earliest_le : ∀ {l : List (Timer κ)} {tm : Timer κ}, earliest l = some tm →
    ∀ x ∈ l, tm.due ≤ x.due
  | [], _, h => by simp [earliest] at h
  | y :: rest, tm, h => by
    intro x hx
    simp only [earliest] at h
    cases hr : earliest rest with
    | none =>
      rw [hr] at h
      simp at h
      subst h
      have : rest = [] := earliest_eq_none.mp hr
      subst this
      simp at hx
      subst hx
      exact Nat.le_refl _
    | some m =>
      rw [hr] at h
      have hm := earliest_le hr
      by_cases hle : y.due ≤ m.due
      · simp [hle] at h
        subst h
        rcases List.mem_cons.mp hx with rfl | hx
        · exact Nat.le_refl _
        · exact Nat.le_trans hle (hm x hx)
      · simp [hle] at h
        subst h
        rcases List.mem_cons.mp hx with rfl | hx
        · omega
        · exact hm x hx

/-- With a measure that every firing decreases, fuel of at least that
measure runs the queue until nothing is due: the scheduler does not stop
early. -/
theorem Loop.runDue_quiet (exec : κ → Loop κ σ → Loop κ σ) (μ : Loop κ σ → Nat)
    (hμ : ∀ L tm, tm ∈ L.pending → μ (Loop.fire exec tm L) < μ L) :
    ∀ (fuel t : Nat) (L : Loop κ σ), μ L ≤ fuel → Loop.Quiet t (Loop.runDue exec fuel t L) := by
  intro fuel
  induction fuel with
  | zero =>
    intro t L h tm htm
    have := hμ L tm (by simpa [Loop.runDue] using htm)
    omega
  | succ n ih =>
    intro t L h
    simp only [Loop.runDue]
    cases he : earliest L.pending with
    | none =>
      intro tm htm
      simp only at htm
      rw [earliest_eq_none.mp he] at htm
      simp at htm
    | some m =>
      by_cases hd : m.due ≤ t
      · simp only [hd, if_true]
        apply ih
        have := hμ L m (earliest_mem he)
        omega
      · simp only [hd, if_false]
        intro tm htm
        have := earliest_le he tm htm
        omega

theorem length_filter_ne_lt {l : List (Timer κ)} {tm : Timer κ} (h : tm ∈ l) :
    (l.filter (fun x => x.id != tm.id)).length < l.length := by
  have hsub := List.length_filter_le (fun x : Timer κ => x.id != tm.id) l
  rcases Nat.lt_or_ge (l.filter (fun x => x.id != tm.id)).length l.length with h1 | h1
  · exact h1
  · have heq : (l.filter (fun x => x.id != tm.id)).length = l.length := by omega
    have := (List.filter_length_eq_length).mp heq tm h
    simp at this

theorem Loop.drive_append (adv : Nat → Loop κ σ → Loop κ σ) (call : α → Loop κ σ → Loop κ σ) :
    ∀ (xs ys : List (Nat × α)) (L : Loop κ σ),
      Loop.drive adv call (xs ++ ys) L = Loop.drive adv call ys (Loop.drive adv call xs L)
  | [], _, _ => rfl
  | (t, a) :: xs, ys, L => by
    simp only [List.cons_append, Loop.drive]
    exact Loop.drive_append adv call xs ys _

/-! ## `debounce` -/

theorem debounceExec_pending_le (cb : DebounceCb α) (L : Loop (DebounceCb α) (DebounceSt α)) :
    (debounceExec cb L).pending.length ≤ L.pending.length := by
  cases cb with
  | later a =>
    cases h : L.st.timeout with
    | none => simp [debounceExec, Loop.clearTimeout, h]
    | some i =>
      simp only [debounceExec, Loop.clearTimeout, h]
      exact List.length_filter_le _ _

/-- The fuel of `debounceAdvance` is enough: afterwards no timer due at or
before `t` is left. -/
theorem debounceAdvance_quiet (t : Nat) (L : Loop (DebounceCb α) (DebounceSt α)) :
    Loop.Quiet t (debounceAdvance t L) := by
  have h := Loop.runDue_quiet (debounceExec (α := α)) (fun L => L.pending.length)
    (by
      intro L tm htm
      have h1 := debounceExec_pending_le tm.cb
        { L with now := max L.now tm.due, pending := L.pending.filter (fun x => x.id != tm.id) }
      have h2 := length_filter_ne_lt htm
      simp only [Loop.fire]
      simp only at h1
      omega)
    L.pending.length t L (Nat.le_refl _)
  intro tm htm
  exact h tm (by simpa [debounceAdvance, Loop.advance] using htm)


theorem debounceInv_cases (t : Nat) (L : Loop (DebounceCb α) (DebounceSt α))
    (h : DebounceInv L) :
    (L.pending = [] ∧ debounceAdvance t L = { L with now := max L.now t }) ∨
    (∃ i d a, L.pending = [⟨i, d, .later a⟩] ∧ L.st.timeout = some i ∧ t < d ∧
      debounceAdvance t L = { L with now := max L.now t }) ∨
    (∃ i d a, L.pending = [⟨i, d, .later a⟩] ∧ L.st.timeout = some i ∧ d ≤ t ∧
      debounceAdvance t L = { L with
        now := max L.now t, pending := [],
        st := { L.st with executed := L.st.executed ++ [(max L.now d, a)] } }) := by
  rcases h with hp | ⟨tm, hp, hto⟩
  · left
    exact ⟨hp, by simp [debounceAdvance, Loop.advance, Loop.runDue, hp]⟩
  · obtain ⟨i, d, cb⟩ := tm
    cases cb with
    | later a =>
      by_cases hd : d ≤ t
      · right; right
        refine ⟨i, d, a, hp, hto, hd, ?_⟩
        have hm : max (max L.now d) t = max L.now t := by omega
        simp at hto
        simp [debounceAdvance, Loop.advance, Loop.runDue, hp, earliest, hd, Loop.fire,
          debounceExec, Loop.clearTimeout, hto, hm]
      · right; left
        refine ⟨i, d, a, hp, hto, by omega, ?_⟩
        simp [debounceAdvance, Loop.advance, Loop.runDue, hp, earliest, hd]

/-- A call arms the wrapper, whatever was pending. -/
theorem armed_of_inv (wait t : Nat) (hwait : wait < 2147483648) (a : α)
    (L : Loop (DebounceCb α) (DebounceSt α)) (h : DebounceInv L) :
    Armed wait (max L.now t) a (debounceAdvance t L).st.executed
      (executedFunction wait a (debounceAdvance t L)) := by
  rcases debounceInv_cases t L h with ⟨hp, hadv⟩ | ⟨i, d, a0, hp, hto, _, hadv⟩ |
      ⟨i, d, a0, hp, hto, _, hadv⟩
  · rw [hadv]
    refine ⟨?_, ?_, ?_⟩ <;> cases hto : L.st.timeout <;>
      simp [executedFunction, Loop.clearTimeout, Loop.setTimeout, hto, hp, hostDelay_of_lt hwait]
  · rw [hadv]
    refine ⟨?_, ?_, ?_⟩ <;>
      simp [executedFunction, Loop.clearTimeout, Loop.setTimeout, hto, hp, hostDelay_of_lt hwait]
  · rw [hadv]
    refine ⟨?_, ?_, ?_⟩ <;>
      simp [executedFunction, Loop.clearTimeout, Loop.setTimeout, hto, hostDelay_of_lt hwait]

theorem debounceInv_of_armed (wait t : Nat) (a : α) (E : List (Nat × α))
    (L : Loop (DebounceCb α) (DebounceSt α)) (h : Armed wait t a E L) : DebounceInv L := by
  obtain ⟨_, _, i, hp, hto⟩ := h
  exact Or.inr ⟨_, hp, hto⟩

theorem debounceInv_drive (wait : Nat) (hwait : wait < 2147483648) :
    ∀ (hist : List (Nat × α)) (L : Loop (DebounceCb α) (DebounceSt α)) (b : Nat),
      DebounceInv L → L.now ≤ b → (∀ h ∈ hist, h.1 ≤ b) →
      DebounceInv (Loop.drive debounceAdvance (executedFunction wait) hist L) ∧
      (Loop.drive debounceAdvance (executedFunction wait) hist L).now ≤ b
  | [], _, _, h, hn, _ => ⟨h, hn⟩
  | c :: hist, L, b, h, hn, hb => by
    have harm := armed_of_inv wait c.1 hwait c.2 L h
    have hc := hb c (List.mem_cons_self _ _)
    have := debounceInv_drive wait hwait hist _ b (debounceInv_of_armed _ _ _ _ _ harm)
      (by rw [harm.1]; omega) (fun h hh => hb h (List.mem_cons_of_mem _ hh))
    simpa [Loop.drive] using this

theorem armed_of_armed (wait t t2 : Nat) (hwait : wait < 2147483648) (a a2 : α)
    (E : List (Nat × α)) (L : Loop (DebounceCb α) (DebounceSt α))
    (h : Armed wait t a E L) (h1 : t ≤ t2) (h2 : t2 < t + wait) :
    Armed wait t2 a2 E (executedFunction wait a2 (debounceAdvance t2 L)) := by
  obtain ⟨hn, he, i, hp, hto⟩ := h
  have hadv : debounceAdvance t2 L = { L with now := t2 } := by
    have hnd : ¬ (t + wait ≤ t2) := by omega
    simp [debounceAdvance, Loop.advance, Loop.runDue, hp, earliest, hnd, hn,
      Nat.max_eq_right h1]
  rw [hadv]
  refine ⟨?_, ?_, ?_⟩
  · simp [executedFunction, Loop.clearTimeout, Loop.setTimeout, hto]
  · simp [executedFunction, Loop.clearTimeout, Loop.setTimeout, hto, he]
  · simp [executedFunction, Loop.clearTimeout, Loop.setTimeout, hto, hp, hostDelay_of_lt hwait]

theorem armed_final (wait t T : Nat) (a : α) (E : List (Nat × α))
    (L : Loop (DebounceCb α) (DebounceSt α)) (h : Armed wait t a E L) :
    (debounceAdvance T L).st.executed = E ++ if t + wait ≤ T then [(t + wait, a)] else [] := by
  obtain ⟨hn, he, i, hp, hto⟩ := h
  by_cases hd : t + wait ≤ T
  · simp [debounceAdvance, Loop.advance, Loop.runDue, hp, earliest, hd, Loop.fire,
      debounceExec, Loop.clearTimeout, hto, he, hn]
  · simp [debounceAdvance, Loop.advance, Loop.runDue, hp, earliest, hd, he]

theorem drive_armed (wait : Nat) (hwait : wait < 2147483648) (E : List (Nat × α)) :
    ∀ (cs : List (Nat × α)) (c : Nat × α) (L : Loop (DebounceCb α) (DebounceSt α)),
      Armed wait c.1 c.2 E L → List.Chain (Burst wait) c cs →
      Armed wait ((c :: cs).getLast (List.cons_ne_nil _ _)).1
        ((c :: cs).getLast (List.cons_ne_nil _ _)).2 E
        (Loop.drive debounceAdvance (executedFunction wait) cs L)
  | [], c, L, h, _ => by simpa [Loop.drive] using h
  | d :: ds, c, L, h, hc => by
    rw [List.chain_cons] at hc
    have hstep := armed_of_armed wait c.1 d.1 hwait c.2 d.2 E L h (Nat.le_of_lt hc.1.1) hc.1.2
    have := drive_armed wait hwait E ds d _ hstep hc.2
    simpa [Loop.drive, List.getLast_cons_cons] using this

/-- C1, as the code has it.  The wrapper is made by `debounce(f, wait)` with
`wait` below 2^31, the largest delay the host's `setTimeout` honours.  After
any earlier calls `hist`, it receives a non-empty burst `cs`, each call later
than the previous one by less than `wait` ms, and no call after the last one.
Then at every instant `T` the executions of `f` are those that had happened
when the burst began, followed by nothing while `T` is before `wait` ms after
the last call of the burst, and from then on by exactly one execution: at the
last call's time plus `wait`, with the last call's arguments. -/
theorem debounce_burst_runs_last_once (wait : Nat) (hwait : wait < 2147483648)
    (hist cs : List (Nat × α)) (hne : cs ≠ []) (hburst : cs.Chain' (Burst wait))
    (hhist : ∀ h ∈ hist, h.1 ≤ (cs.head hne).1) (T : Nat) :
    (debounceRun wait (hist ++ cs) T).st.executed =
      (debounceRun wait hist (cs.head hne).1).st.executed ++
      (if (cs.getLast hne).1 + wait ≤ T
       then [((cs.getLast hne).1 + wait, (cs.getLast hne).2)] else []) := by
  cases cs with
  | nil => exact absurd rfl hne
  | cons c rest =>
    simp only [List.head_cons] at hhist ⊢
    have hinv := debounceInv_drive wait hwait hist (debounce (α := α)) c.1 (Or.inl rfl)
      (Nat.zero_le _) hhist
    have h0 := armed_of_inv wait c.1 hwait c.2 _ hinv.1
    rw [Nat.max_eq_right hinv.2] at h0
    have h1 := drive_armed wait hwait _ rest c _ h0 hburst
    have h2 := armed_final wait _ T _ _ _ h1
    simpa [debounceRun, Loop.drive_append, Loop.drive] using h2

/-- C1 as amended, at a concrete history: one call at 0 ms, which runs at
300 ms, then the spec's burst moved to 1000, 1100 and 1200 ms with
`wait = 300`; the burst adds one execution, at 1500 ms, with the third
call's arguments. -/
theorem debounce_burst_runs_last_once_witness :
    (debounceRun 300 ([(0, "x")] ++ [(1000, "a"), (1100, "b"), (1200, "c")]) 2000).st.executed
      = [(300, "x"), (1500, "c")] := by
  have h := debounce_burst_runs_last_once 300 (by decide) [(0, "x")]
    [(1000, "a"), (1100, "b"), (1200, "c")] (by simp) (by simp [Burst]) (by simp) 2000
  have hb : (debounceRun 300 [(0, "x")] 1000).st.executed = [(300, "x")] := by decide
  simpa [hb] using h

/-- C1 as stated fails for a large `wait`: with `wait = 2^31` the host takes
the delay as 0, so in the burst at 0, 100 and 200 ms every call's `later`
fires at once; by 1000 ms `f` has run three times, while the claim has no
execution before 200 ms + 2^31. -/
theorem debounce_large_wait_counterexample :
    (debounceRun 2147483648 [(0, "a"), (100, "b"), (200, "c")] 1000).st.executed
      = [(0, "a"), (100, "b"), (200, "c")] ∧
    ¬ ((debounceRun 2147483648 [(0, "a"), (100, "b"), (200, "c")] 1000).st.executed
      = if 200 + 2147483648 ≤ 1000 then [(200 + 2147483648, "c")] else []) := by
  decide

/-! ## `throttle` -/

theorem throttleExec_pending (cb : ThrottleCb) (L : Loop ThrottleCb (ThrottleSt α)) :
    (throttleExec cb L).pending = L.pending := by
  cases cb; rfl

/-- The fuel of `throttleAdvance` is enough: afterwards no timer due at or
before `t` is left. -/
theorem throttleAdvance_quiet (t : Nat) (L : Loop ThrottleCb (ThrottleSt α)) :
    Loop.Quiet t (throttleAdvance t L) := by
  have h := Loop.runDue_quiet (throttleExec (α := α)) (fun L => L.pending.length)
    (by
      intro L tm htm
      have h2 := length_filter_ne_lt htm
      simp only [Loop.fire, throttleExec_pending]
      exact h2)
    L.pending.length t L (Nat.le_refl _)
  intro tm htm
  exact h tm (by simpa [throttleAdvance, Loop.advance] using htm)

theorem throttle_runDue_executed (fuel t : Nat) :
    ∀ L : Loop ThrottleCb (ThrottleSt α),
      (Loop.runDue throttleExec fuel t L).st.executed = L.st.executed := by
  induction fuel with
  | zero => intro L; rfl
  | succ n ih =>
    intro L
    simp only [Loop.runDue]
    cases he : earliest L.pending with
    | none => rfl
    | some m =>
      by_cases hd : m.due ≤ t
      · simp only [hd, if_true]
        rw [ih]
        cases hcb : m.cb
        simp [Loop.fire, throttleExec, hcb]
      · simp only [hd, if_false]

theorem throttleAdvance_executed (t : Nat) (L : Loop ThrottleCb (ThrottleSt α)) :
    (throttleAdvance t L).st.executed = L.st.executed := by
  simp [throttleAdvance, Loop.advance, throttle_runDue_executed]

/-- One call at time `t` on which `func` returns, from a state that
satisfies the invariant. -/
theorem throttle_step (limit : Nat) (hlimit : 0 < limit) (hhost : limit < 2147483648)
    (t : Nat) (a : α)
    (L : Loop ThrottleCb (ThrottleSt α)) (hinv : ThrottleInv limit L) (hnow : L.now ≤ t) :
    ThrottleInv limit (throttled limit (a, false) (throttleAdvance t L)) ∧
    (throttled limit (a, false) (throttleAdvance t L)).now = t ∧
    ((throttled limit (a, false) (throttleAdvance t L)).st.executed = L.st.executed ∨
      (throttled limit (a, false) (throttleAdvance t L)).st.executed
        = L.st.executed ++ [(t, a)]) ∧
    (∀ e, L.st.executed.getLast? = some e → t < e.1 + limit →
      (throttled limit (a, false) (throttleAdvance t L)).st.executed = L.st.executed) ∧
    (∀ e, L.st.executed.getLast? = some e → e.1 + limit < t →
      (throttled limit (a, false) (throttleAdvance t L)).st.executed
        = L.st.executed ++ [(t, a)]) := by
  have hh := hostDelay_of_lt hhost
  obtain ⟨hpw, hcase⟩ := hinv
  rcases hcase with ⟨hopen, hp, hold⟩ | ⟨hclosed, i, e, a0, rest, hp, hex, he1, he2⟩
  · -- open: nothing pending, the call executes
    have hadv : throttleAdvance t L = { L with now := t } := by
      simp [throttleAdvance, Loop.advance, Loop.runDue, hp, Nat.max_eq_right hnow]
    have hrun : (throttled limit (a, false) (throttleAdvance t L)).st.executed
        = L.st.executed ++ [(t, a)] := by
      rw [hadv]; simp [throttled, hopen, Loop.setTimeout]
    refine ⟨⟨?_, Or.inr ⟨?_, L.nextId, t, a, L.st.executed, ?_, hrun, ?_, ?_⟩⟩, ?_, Or.inr hrun, ?_, ?_⟩
    · rw [hrun, List.pairwise_append]
      refine ⟨hpw, by simp, ?_⟩
      intro p hp1 q hq
      simp at hq
      subst hq
      have := hold p hp1
      simp only [Spaced]
      omega
    · rw [hadv]; simp [throttled, hopen, Loop.setTimeout]
    · rw [hadv]; simp [throttled, hopen, Loop.setTimeout, hp, hh]
    · rw [hadv]; simp [throttled, hopen, Loop.setTimeout]
    · rw [hadv]; simp [throttled, hopen, Loop.setTimeout]; omega
    · rw [hadv]; simp [throttled, hopen, Loop.setTimeout]
    · intro e0 he0 hlt
      have := hold e0 (List.mem_of_getLast?_eq_some he0)
      omega
    · intro _ _ _; exact hrun
  · by_cases hd : e + limit ≤ t
    · -- the cooldown is over: the timer reopens the wrapper, the call executes
      have hadv : throttleAdvance t L =
          { L with now := t, pending := [], st := { L.st with inThrottle := false } } := by
        have h1 : max L.now (e + limit) ≤ t := Nat.max_le.mpr ⟨hnow, hd⟩
        simp [throttleAdvance, Loop.advance, Loop.runDue, hp, earliest, hd, Loop.fire,
          throttleExec, Nat.max_eq_right h1]
      have hrun : (throttled limit (a, false) (throttleAdvance t L)).st.executed
          = L.st.executed ++ [(t, a)] := by
        rw [hadv]; simp [throttled, Loop.setTimeout]
      have hall : ∀ p ∈ L.st.executed, p.1 + limit ≤ t := by
        intro p hp1
        rw [hex, List.mem_append] at hp1
        rcases hp1 with hp1 | hp1
        · rw [hex, List.pairwise_append] at hpw
          have := hpw.2.2 p hp1 (e, a0) (by simp)
          simp only [Spaced] at this
          omega
        · simp at hp1; subst hp1; exact hd
      refine ⟨⟨?_, Or.inr ⟨?_, L.nextId, t, a, L.st.executed, ?_, hrun, ?_, ?_⟩⟩, ?_, Or.inr hrun, ?_, ?_⟩
      · rw [hrun, List.pairwise_append]
        refine ⟨hpw, by simp, ?_⟩
        intro p hp1 q hq
        simp at hq
        subst hq
        exact hall p hp1
      · rw [hadv]; simp [throttled, Loop.setTimeout]
      · rw [hadv]; simp [throttled, Loop.setTimeout, hh]
      · rw [hadv]; simp [throttled, Loop.setTimeout]
      · rw [hadv]; simp [throttled, Loop.setTimeout]; omega
      · rw [hadv]; simp [throttled, Loop.setTimeout]
      · intro e0 he0 hlt
        have := hall e0 (List.mem_of_getLast?_eq_some he0)
        omega
      · intro _ _ _; exact hrun
    · -- still cooling: the call is dropped
      have hadv : throttleAdvance t L = { L with now := t } := by
        simp [throttleAdvance, Loop.advance, Loop.runDue, hp, earliest, hd,
          Nat.max_eq_right hnow]
      have hrun : (throttled limit (a, false) (throttleAdvance t L)).st.executed
          = L.st.executed := by
        rw [hadv]; simp [throttled, hclosed]
      have hstate : throttled limit (a, false) (throttleAdvance t L) = { L with now := t } := by
        rw [hadv]; simp [throttled, hclosed]
      refine ⟨⟨?_, Or.inr ⟨?_, i, e, a0, rest, ?_, ?_, ?_, ?_⟩⟩, ?_, Or.inl hrun, ?_, ?_⟩
      · rw [hrun]; exact hpw
      · rw [hstate]; exact hclosed
      · rw [hstate]; exact hp
      · rw [hrun]; exact hex
      · rw [hstate]; simp; omega
      · rw [hstate]; simp; omega
      · rw [hstate]
      · intro _ _ _; exact hrun
      · intro e0 he0 hlt
        rw [hex] at he0
        simp at he0
        subst he0
        simp at hlt
        omega

theorem throttleRun_snoc (limit : Nat) (pre : List (Nat × α × Bool)) (c : Nat × α × Bool) :
    throttleRun limit (pre ++ [c]) =
      throttled limit c.2 (throttleAdvance c.1 (throttleRun limit pre)) := by
  simp [throttleRun, Loop.drive_append, Loop.drive]

theorem throttleRun_inv (limit : Nat) (hlimit : 0 < limit) (hhost : limit < 2147483648)
    (pre : List (Nat × α × Bool)) :
    pre.Pairwise (fun p q => p.1 ≤ q.1) → (∀ x ∈ pre, x.2.2 = false) →
    ThrottleInv limit (throttleRun limit pre) ∧
    (throttleRun limit pre).st.executed.Sublist (pre.map callRecord) ∧
    (∀ b, (∀ p ∈ pre, p.1 ≤ b) → (throttleRun limit pre).now ≤ b) := by
  induction pre using List.reverseRecOn with
  | nil =>
    intro _ _
    refine ⟨⟨?_, Or.inl ⟨rfl, rfl, ?_⟩⟩, ?_, ?_⟩
    · simp [throttleRun, Loop.drive, throttle]
    · simp [throttleRun, Loop.drive, throttle]
    · simp [throttleRun, Loop.drive, throttle]
    · intro b _; simp [throttleRun, Loop.drive, throttle]
  | append_singleton pre c ih =>
    intro hs hret
    rw [List.pairwise_append] at hs
    obtain ⟨hinv, hsub, hnow⟩ := ih hs.1 (fun x hx => hret x (List.mem_append_left _ hx))
    have hle : (throttleRun limit pre).now ≤ c.1 :=
      hnow c.1 (fun p hp => hs.2.2 p hp c (by simp))
    have hc : c.2 = (c.2.1, false) := by
      have := hret c (by simp)
      exact Prod.ext rfl this
    obtain ⟨h1, h2, h3, _, _⟩ := throttle_step limit hlimit hhost c.1 c.2.1 _ hinv hle
    rw [throttleRun_snoc, hc]
    refine ⟨h1, ?_, ?_⟩
    · rw [List.map_append]
      rcases h3 with h3 | h3
      · rw [h3]; exact hsub.trans (List.sublist_append_left _ _)
      · rw [h3]; exact List.Sublist.append hsub (List.Sublist.refl _)
    · intro b hb
      rw [h2]
      exact hb c (by simp)

/-- C2, as the code has it.  The wrapper is made by `throttle(f, limit)` with
`limit` above 0 and below 2^31, the largest delay the host's `setTimeout`
honours, and `f` returns on every call (it does not throw).  The wrapper has
received the calls `pre` and now receives the call `c` (call times in
non-decreasing order).  Then: if `c` is the first call, `f` runs at once with
its arguments; if `c` comes less than `limit` ms after the most recent
execution, `f` does not run; if it comes more than `limit` ms after it, `f`
runs at once with the arguments of `c` (which makes `c` the most recent
execution for the calls after it); all executions are at least `limit` ms
apart; every execution is one of the calls, at that call's time and with its
arguments; and letting time pass without a call never runs `f`, so a dropped
call is never run later. -/
theorem throttle_contract (limit : Nat) (hlimit : 0 < limit) (hhost : limit < 2147483648)
    (pre : List (Nat × α × Bool)) (c : Nat × α × Bool)
    (hsorted : (pre ++ [c]).Pairwise (fun p q => p.1 ≤ q.1))
    (hret : ∀ x ∈ pre ++ [c], x.2.2 = false) :
    (pre = [] → (throttleRun limit (pre ++ [c])).st.executed = [callRecord c]) ∧
    (∀ e, (throttleRun limit pre).st.executed.getLast? = some e → c.1 < e.1 + limit →
      (throttleRun limit (pre ++ [c])).st.executed = (throttleRun limit pre).st.executed) ∧
    (∀ e, (throttleRun limit pre).st.executed.getLast? = some e → e.1 + limit < c.1 →
      (throttleRun limit (pre ++ [c])).st.executed
        = (throttleRun limit pre).st.executed ++ [callRecord c]) ∧
    (throttleRun limit (pre ++ [c])).st.executed.Pairwise (Spaced limit) ∧
    (throttleRun limit (pre ++ [c])).st.executed.Sublist ((pre ++ [c]).map callRecord) ∧
    (∀ T, (throttleAdvance T (throttleRun limit (pre ++ [c]))).st.executed
        = (throttleRun limit (pre ++ [c])).st.executed) := by
  have hpre := throttleRun_inv limit hlimit hhost pre (List.pairwise_append.mp hsorted).1
    (fun x hx => hret x (List.mem_append_left _ hx))
  have hall := throttleRun_inv limit hlimit hhost (pre ++ [c]) hsorted hret
  have hle : (throttleRun limit pre).now ≤ c.1 :=
    hpre.2.2 c.1 (fun p hp => (List.pairwise_append.mp hsorted).2.2 p hp c (by simp))
  have hc : c.2 = (c.2.1, false) := by
    have := hret c (by simp)
    exact Prod.ext rfl this
  obtain ⟨_, _, _, h4, h5⟩ := throttle_step limit hlimit hhost c.1 c.2.1 _ hpre.1 hle
  refine ⟨?_, ?_, ?_, hall.1.1, hall.2.1, fun T => throttleAdvance_executed T _⟩
  · intro hnil
    subst hnil
    rw [List.nil_append, ← List.nil_append [c], throttleRun_snoc, hc]
    simp [throttleRun, Loop.drive, throttle, throttleAdvance, Loop.advance, Loop.runDue,
      throttled, Loop.setTimeout, callRecord]
  · intro e he hlt
    rw [throttleRun_snoc, hc]
    exact h4 e he hlt
  · intro e he hlt
    rw [throttleRun_snoc, hc]
    exact h5 e he hlt

/-- C2 as amended, at the spec's example: calls at 0, 50, 150 and 250 ms with
`limit = 200`, `f` returning on each; the call at 250 comes more than 200 ms
after the execution at 0, so the executions are those at 0 and at 250. -/
theorem throttle_contract_witness :
    (throttleRun 200
        [(0, "a", false), (50, "b", false), (150, "c", false), (250, "d", false)]).st.executed
      = [(0, "a"), (250, "d")] := by
  have h := (throttle_contract 200 (by decide) (by decide)
    [(0, "a", false), (50, "b", false), (150, "c", false)] (250, "d", false)
    (by simp) (by simp)).2.2.1 (0, "a") (by decide) (by decide)
  have hb : (throttleRun 200
      [(0, "a", false), (50, "b", false), (150, "c", false)]).st.executed = [(0, "a")] := by
    decide
  rw [hb] at h
  exact h

/-- C2 as stated fails twice.  With `limit = 2^31` the host takes the delay
of the reset timer as 0, so the call at 100 ms, inside the cooldown the claim
names, runs `f`.  And with `limit = 200`, when `f` throws on the call at 0 ms
the wrapper is left before `inThrottle = true`, no cooldown starts, and the
call at 1 ms runs `f` again.  In both runs two executions are less than
`limit` ms apart. -/
theorem throttle_counterexample :
    (throttleRun 2147483648 [(0, "a", false), (100, "b", false)]).st.executed
      = [(0, "a"), (100, "b")] ∧
    ¬ (throttleRun 2147483648 [(0, "a", false), (100, "b", false)]).st.executed.Pairwise
      (fun p q => p.1 + 2147483648 ≤ q.1) ∧
    (throttleRun 200 [(0, "a", true), (1, "b", false)]).st.executed = [(0, "a"), (1, "b")] ∧
    ¬ (throttleRun 200 [(0, "a", true), (1, "b", false)]).st.executed.Pairwise
      (fun p q => p.1 + 200 ≤ q.1) := by
  have h1 : (throttleRun 2147483648 [(0, "a", false), (100, "b", false)]).st.executed
      = [(0, "a"), (100, "b")] := by decide
  have h2 : (throttleRun 200 [(0, "a", true), (1, "b", false)]).st.executed
      = [(0, "a"), (1, "b")] := by decide
  refine ⟨h1, ?_, h2, ?_⟩
  · rw [h1]; simp
  · rw [h2]; simp

/-! ## Document tree -/

theorem Forest.count_append (p : Elem → Bool) :
    ∀ f g : Forest, (f.append g).count p = f.count p + g.count p
  | .nil, g => by simp [Forest.append, Forest.count]
  | .node e k n, g => by
    simp [Forest.append, Forest.count, Forest.count_append p n g]
    omega

theorem Forest.any_iff_count (p : Elem → Bool) :
    ∀ f : Forest, f.any p = true ↔ 0 < f.count p
  | .nil => by simp [Forest.any, Forest.count]
  | .node e k n => by
    have hk := Forest.any_iff_count p k
    have hn := Forest.any_iff_count p n
    by_cases he : p e = true
    · simp [Forest.any, Forest.count, he]
    · simp only [Forest.any, Forest.count, he, Bool.false_or, Bool.or_eq_true, hk, hn]
      simp

theorem Forest.any_eq_false_iff (p : Elem → Bool) (f : Forest) :
    f.any p = false ↔ f.count p = 0 := by
  have h := Forest.any_iff_count p f
  cases hb : f.any p
  · simp [hb] at h; simp [h]
  · simp [hb] at h; simp; omega

theorem Forest.first_eq_none_iff (p : Elem → Bool) :
    ∀ f : Forest, f.first p = none ↔ f.count p = 0
  | .nil => by simp [Forest.first, Forest.count]
  | .node e k n => by
    have hk := Forest.first_eq_none_iff p k
    have hn := Forest.first_eq_none_iff p n
    by_cases he : p e = true
    · simp [Forest.first, Forest.count, he]
    · simp only [Forest.first, Forest.count, he]
      cases hf : k.first p with
      | none =>
        have := hk.mp hf
        simp [this, hn]
      | some x =>
        have : k.count p ≠ 0 := fun h0 => by
          have := hk.mpr h0
          rw [hf] at this
          cases this
        simp
        omega

theorem Forest.count_removeFirst_le (p q : Elem → Bool) :
    ∀ f : Forest, (f.removeFirst p).count q ≤ f.count q
  | .nil => by simp [Forest.removeFirst]
  | .node e k n => by
    have hk := Forest.count_removeFirst_le p q k
    have hn := Forest.count_removeFirst_le p q n
    simp only [Forest.removeFirst]
    split
    · simp only [Forest.count]; omega
    · split
      · simp only [Forest.count]; omega
      · simp only [Forest.count]; omega

theorem Forest.flat_of_count_eq_zero (p : Elem → Bool) :
    ∀ f : Forest, f.count p = 0 → f.Flat p
  | .nil, _ => trivial
  | .node e k n, h => by
    simp only [Forest.count] at h
    have hk : k.count p = 0 := by omega
    have hn : n.count p = 0 := by omega
    exact ⟨fun _ => hk, Forest.flat_of_count_eq_zero p k hk, Forest.flat_of_count_eq_zero p n hn⟩

theorem Forest.flat_append (p : Elem → Bool) :
    ∀ f g : Forest, f.Flat p → g.Flat p → (f.append g).Flat p
  | .nil, _, _, hg => hg
  | .node _ _ n, g, hf, hg => ⟨hf.1, hf.2.1, Forest.flat_append p n g hf.2.2 hg⟩

theorem Forest.flat_removeFirst (p : Elem → Bool) :
    ∀ f : Forest, f.Flat p → (f.removeFirst p).Flat p
  | .nil, _ => trivial
  | .node e k n, hf => by
    simp only [Forest.removeFirst]
    split
    · exact hf.2.2
    · rename_i he
      split
      · exact ⟨fun h => absurd h he, Forest.flat_removeFirst p k hf.2.1, hf.2.2⟩
      · exact ⟨hf.1, hf.2.1, Forest.flat_removeFirst p n hf.2.2⟩

/-- In a flat tree, removing the first match takes away exactly one match. -/
theorem Forest.count_removeFirst_flat (p : Elem → Bool) :
    ∀ f : Forest, f.Flat p → 0 < f.count p → (f.removeFirst p).count p + 1 = f.count p
  | .nil, _, h => by simp [Forest.count] at h
  | .node e k n, hf, h => by
    simp only [Forest.removeFirst]
    by_cases he : p e = true
    · have := hf.1 he
      simp [he, Forest.count, this]
      omega
    · by_cases hk : k.any p = true
      · have hk0 := (Forest.any_iff_count p k).mp hk
        have := Forest.count_removeFirst_flat p k hf.2.1 hk0
        simp [he, hk, Forest.count]
        omega
      · have hk0 : k.count p = 0 := (Forest.any_eq_false_iff p k).mp (by simpa using hk)
        have hn0 : 0 < n.count p := by
          simp [Forest.count, he, hk0] at h
          exact h
        have := Forest.count_removeFirst_flat p n hf.2.2 hn0
        simp [he, hk, Forest.count]
        omega

theorem Forest.count_appendChildTo_le (p q : Elem → Bool) (c : Forest) :
    ∀ f : Forest, (Forest.appendChildTo p c f).count q ≤ f.count q + c.count q
  | .nil => by simp [Forest.appendChildTo, Forest.count]
  | .node e k n => by
    have hk := Forest.count_appendChildTo_le p q c k
    have hn := Forest.count_appendChildTo_le p q c n
    simp only [Forest.appendChildTo]
    split
    · simp only [Forest.count, Forest.count_append]; omega
    · split
      · simp only [Forest.count]; omega
      · simp only [Forest.count]; omega

theorem classTokens_overlay : classTokens "loading-overlay" = ["loading-overlay"] := by
  decide

theorem hasClass_overlayElem (n : Nat) : hasClass "loading-overlay" (overlayElem n) = true := by
  simp [hasClass, overlayElem, createElement, classTokens_overlay]

/-! ## `performSearch` -/

/-- C4. A query of fewer than two UTF-16 code units makes `performSearch`
return the page exactly as it was: same document, no overlay added, no
timer registered.  A query of at least two makes it append one new
`.loading-overlay` element to `body`, which raises the number of overlays by
one, and register one timer, due 500 ms from now, whose closure calls
`hideLoadingState`; the clock, the search field and the other timers stay as
they were. -/
theorem performSearch_short_is_noop_long_shows_overlay (query : String) (s : Page) :
    (jsLength query < 2 → performSearch query s = s) ∧
    (2 ≤ jsLength query →
      (performSearch query s).st.doc
        = s.st.doc.append (.node (overlayElem s.st.nextNid) .nil .nil) ∧
      overlayCount (performSearch query s) = overlayCount s + 1 ∧
      (performSearch query s).pending = s.pending ++ [⟨s.nextId, s.now + 500, PageCb.hide⟩] ∧
      pageExec PageCb.hide = hideLoadingState ∧
      (performSearch query s).now = s.now ∧
      (performSearch query s).st.searchValue = s.st.searchValue ∧
      (performSearch query s).st.searchTimeout = s.st.searchTimeout) := by
  constructor
  · intro h
    simp [performSearch, h]
  · intro h
    have hn : ¬ jsLength query < 2 := by omega
    refine ⟨?_, ?_, ?_, ?_, ?_, ?_, ?_⟩
    · simp [performSearch, hn, showLoadingState, Loop.setTimeout]
    · simp [performSearch, hn, showLoadingState, Loop.setTimeout, overlayCount,
        Forest.count_append, Forest.count, hasClass_overlayElem]
    · simp [performSearch, hn, showLoadingState, Loop.setTimeout, hostDelay_500]
    · funext s; rfl
    · simp [performSearch, hn, showLoadingState, Loop.setTimeout]
    · simp [performSearch, hn, showLoadingState, Loop.setTimeout]
    · simp [performSearch, hn, showLoadingState, Loop.setTimeout]

/-- C4 on a page just loaded with an empty document: the one-character query
"a" changes nothing, the query "ab" shows one overlay and registers the hide
timer for 500 ms. -/
theorem performSearch_short_is_noop_long_shows_overlay_witness :
    performSearch "a" (Page.init .nil 1 "") = Page.init .nil 1 "" ∧
    overlayCount (performSearch "ab" (Page.init .nil 1 "")) = 1 ∧
    (performSearch "ab" (Page.init .nil 1 "")).pending = [⟨1, 500, PageCb.hide⟩] := by
  have h := performSearch_short_is_noop_long_shows_overlay
  refine ⟨(h "a" (Page.init .nil 1 "")).1 (by decide), ?_, ?_⟩
  · have h2 := ((h "ab" (Page.init .nil 1 "")).2 (by decide)).2.1
    simpa [overlayCount, Page.init, Forest.count] using h2
  · have h3 := ((h "ab" (Page.init .nil 1 "")).2 (by decide)).2.2.1
    simpa [Page.init] using h3

/-! ## Page scheduler -/

theorem hideLoadingState_now (s : Page) : (hideLoadingState s).now = s.now := by
  simp only [hideLoadingState]; split <;> rfl

theorem hideLoadingState_nextId (s : Page) : (hideLoadingState s).nextId = s.nextId := by
  simp only [hideLoadingState]; split <;> rfl

theorem hideLoadingState_pending (s : Page) : (hideLoadingState s).pending = s.pending := by
  simp only [hideLoadingState]; split <;> rfl

theorem hideLoadingState_searched (s : Page) :
    (hideLoadingState s).st.searched = s.st.searched := by
  simp only [hideLoadingState]; split <;> rfl

theorem hideLoadingState_searchTimeout (s : Page) :
    (hideLoadingState s).st.searchTimeout = s.st.searchTimeout := by
  simp only [hideLoadingState]; split <;> rfl

theorem hideLoadingState_searchValue (s : Page) :
    (hideLoadingState s).st.searchValue = s.st.searchValue := by
  simp only [hideLoadingState]; split <;> rfl

theorem sum_rank_filter_le (l : List (Timer PageCb)) (i : Nat) :
    ((l.filter (fun x => x.id != i)).map (fun tm => cbRank tm.cb)).sum
      ≤ (l.map (fun tm => cbRank tm.cb)).sum := by
  induction l with
  | nil => simp
  | cons x xs ih =>
    by_cases hx : x.id = i
    · simp [List.filter_cons, hx]; omega
    · simp [List.filter_cons, hx]; omega

theorem sum_rank_filter_ne (l : List (Timer PageCb)) (tm : Timer PageCb) (h : tm ∈ l) :
    ((l.filter (fun x => x.id != tm.id)).map (fun tm => cbRank tm.cb)).sum + cbRank tm.cb
      ≤ (l.map (fun tm => cbRank tm.cb)).sum := by
  induction l with
  | nil => cases h
  | cons x xs ih =>
    rcases List.mem_cons.mp h with rfl | hx
    · have := sum_rank_filter_le xs tm.id
      simp [List.filter_cons]
      omega
    · have := ih hx
      by_cases hxi : x.id = tm.id
      · simp [List.filter_cons, hxi]; omega
      · simp [List.filter_cons, hxi]; omega

theorem pageMeasure_fire_lt (s : Page) (tm : Timer PageCb) (h : tm ∈ s.pending) :
    pageMeasure (Loop.fire pageExec tm s) < pageMeasure s := by
  have hsum := sum_rank_filter_ne s.pending tm h
  cases hcb : tm.cb with
  | search =>
    rw [hcb] at hsum
    simp only [Loop.fire, hcb, pageExec, searchCall, pageMeasure, performSearch]
    split
    · simp only [cbRank] at hsum ⊢; omega
    · simp only [Loop.setTimeout, showLoadingState, List.map_append, List.sum_append]
      simp only [cbRank, List.map_cons, List.map_nil, List.sum_cons, List.sum_nil] at hsum ⊢
      omega
  | hide =>
    rw [hcb] at hsum
    simp only [Loop.fire, hcb, pageExec, pageMeasure, hideLoadingState_pending]
    simp only [cbRank] at hsum ⊢; omega
  | removeToast n =>
    rw [hcb] at hsum
    simp only [Loop.fire, hcb, pageExec, pageMeasure]
    simp only [cbRank] at hsum ⊢; omega

theorem pageMeasure_le (s : Page) : pageMeasure s ≤ 2 * s.pending.length := by
  simp only [pageMeasure]
  induction s.pending with
  | nil => simp
  | cons x xs ih =>
    have : cbRank x.cb ≤ 2 := by cases x.cb <;> simp [cbRank]
    simp only [List.map_cons, List.sum_cons, List.length_cons]
    omega

/-- The fuel of `pageAdvance` is enough: afterwards no timer due at or
before `t` is left. -/
theorem pageAdvance_quiet (t : Nat) (s : Page) : Loop.Quiet t (pageAdvance t s) := by
  have h := Loop.runDue_quiet pageExec pageMeasure
    (fun L tm htm => pageMeasure_fire_lt L tm htm) (2 * s.pending.length) t s (pageMeasure_le s)
  intro tm htm
  exact h tm (by simpa [pageAdvance, Loop.advance] using htm)

/-! ## Loading overlay -/

theorem overlayCount_showLoadingState (s : Page) :
    overlayCount (showLoadingState s) = overlayCount s + 1 := by
  simp [showLoadingState, overlayCount, Forest.count_append, Forest.count, hasClass_overlayElem]

theorem overlayCount_hideLoadingState_le (s : Page) :
    overlayCount (hideLoadingState s) ≤ overlayCount s := by
  simp only [hideLoadingState, overlayCount]
  split
  · exact Forest.count_removeFirst_le _ _ _
  · exact Nat.le_refl _

theorem overlayCount_performSearch_le (q : String) (s : Page) :
    overlayCount (performSearch q s) ≤ overlayCount s + 1 := by
  by_cases h : jsLength q < 2
  · simp [performSearch, h]
  · have := overlayCount_showLoadingState s
    simp only [performSearch, h, if_false]
    simp only [overlayCount, Loop.setTimeout] at this ⊢
    omega

theorem classTokens_container :
    classTokens "toast-container position-fixed top-0 end-0 p-3"
      = ["toast-container", "position-fixed", "top-0", "end-0", "p-3"] := by
  decide

theorem hasClass_containerElem (n : Nat) :
    hasClass "loading-overlay" (containerElem n) = false := by
  simp [hasClass, containerElem, createElement, classTokens_container]

/-- An operation on the overlay adds at most one overlay. -/
theorem overlayCount_step_le (op : PageOp) (s : Page) (hok : overlayOnly s op) :
    overlayCount (Page.step op s) ≤ overlayCount s + 1 := by
  cases op with
  | tick dt => simp [Page.step, overlayCount]
  | fire id =>
    simp only [Page.step]
    cases hf : s.pending.find? (fun tm => tm.id == id) with
    | none => simp
    | some tm =>
      simp only
      have hcb : tm.cb = PageCb.hide := hok tm hf
      split
      · simp only [Loop.fire, hcb, pageExec]
        exact Nat.le_succ_of_le (overlayCount_hideLoadingState_le _)
      · omega
  | input v => exact absurd hok (by simp [overlayOnly])
  | assign v => exact absurd hok (by simp [overlayOnly])
  | performSearch q => exact overlayCount_performSearch_le q s
  | showLoadingState => simp [Page.step, overlayCount_showLoadingState]
  | hideLoadingState => exact Nat.le_succ_of_le (overlayCount_hideLoadingState_le s)
  | showToast m t d c => exact absurd hok (by simp [overlayOnly])

theorem overlay_le_one_of_notStacked :
    ∀ (ops : List PageOp) (s : Page), overlayCount s ≤ 1 →
      Page.Admits (fun s op => overlayOnly s op ∧ notStacked s op) ops s →
      overlayCount (Page.run ops s) ≤ 1
  | [], s, h, _ => by simpa [Page.run] using h
  | op :: ops, s, h, hadm => by
    simp only [Page.run]
    apply overlay_le_one_of_notStacked ops _ _ hadm.2
    have hst := overlayCount_step_le op s hadm.1.1
    by_cases hgt : overlayCount s < overlayCount (Page.step op s)
    · have := hadm.1.2 hgt
      omega
    · omega

theorem balanced_of_zero (s : Page) (h0 : overlayCount s = 0) (ht : hideTimers s = 0) :
    Balanced s := by
  have hnil : s.pending.filter (fun tm => tm.cb == PageCb.hide) = [] :=
    List.length_eq_zero.mp ht
  refine ⟨by omega, Forest.flat_of_count_eq_zero _ _ h0, by simp [hnil], ?_⟩
  intro tm htm hcb
  have : tm ∈ s.pending.filter (fun tm => tm.cb == PageCb.hide) :=
    List.mem_filter.mpr ⟨htm, by simp [hcb]⟩
  rw [hnil] at this
  cases this

theorem balanced_tick (dt : Nat) (s : Page) (h : Balanced s) :
    Balanced { s with now := s.now + dt } := h

theorem balanced_performSearch (q : String) (s : Page) (h : Balanced s) :
    Balanced (performSearch q s) := by
  by_cases hq : jsLength q < 2
  · simpa [performSearch, hq] using h
  · obtain ⟨hb, hflat, hnd, hlt⟩ := h
    simp only [performSearch, hq, if_false]
    refine ⟨?_, ?_, ?_, ?_⟩
    · have := overlayCount_showLoadingState s
      simp only [overlayCount, hideTimers] at this hb ⊢
      simp [Loop.setTimeout, List.filter_append, showLoadingState] at this ⊢
      omega
    · simp only [Loop.setTimeout, showLoadingState]
      apply Forest.flat_append _ _ _ hflat
      exact ⟨fun _ => rfl, trivial, trivial⟩
    · simp only [Loop.setTimeout, showLoadingState, List.filter_append, List.map_append]
      rw [List.nodup_append]
      refine ⟨hnd, by simp [List.filter], ?_⟩
      intro a ha hb2
      simp [List.filter] at hb2
      subst hb2
      simp only [List.mem_map, List.mem_filter] at ha
      obtain ⟨tm, ⟨htm, hcb⟩, hid⟩ := ha
      have := hlt tm htm (by simpa using hcb)
      omega
    · intro tm htm hcb
      simp only [Loop.setTimeout, showLoadingState, List.mem_append] at htm ⊢
      rcases htm with htm | htm
      · have := hlt tm htm hcb
        omega
      · simp at htm
        subst htm
        simp

theorem length_filter_ne_of_nodup {l : List (Timer PageCb)} {tm : Timer PageCb}
    (hnd : (l.map (fun x => x.id)).Nodup) (h : tm ∈ l) :
    (l.filter (fun x => x.id != tm.id)).length + 1 = l.length := by
  induction l with
  | nil => cases h
  | cons x xs ih =>
    rw [List.map_cons, List.nodup_cons] at hnd
    rcases List.mem_cons.mp h with rfl | hx
    · have hall : ∀ y ∈ xs, (y.id != tm.id) = true := by
        intro y hy
        have : y.id ≠ tm.id := fun he => hnd.1 (List.mem_map.mpr ⟨y, hy, he⟩)
        simpa using this
      simp [List.filter_cons, List.filter_eq_self.mpr hall]
    · have hne : x.id ≠ tm.id := fun he => hnd.1 (List.mem_map.mpr ⟨tm, hx, he.symm⟩)
      have := ih hnd.2 hx
      simp [List.filter_cons, hne]
      omega

theorem filter_hide_filter_ne (l : List (Timer PageCb)) (i : Nat) :
    (l.filter (fun x => x.id != i)).filter (fun tm => tm.cb == PageCb.hide)
      = (l.filter (fun tm => tm.cb == PageCb.hide)).filter (fun x => x.id != i) := by
  rw [List.filter_filter, List.filter_filter]
  congr 1
  funext x
  exact Bool.and_comm _ _

/-- The host runs a hide timer of a balanced page: exactly one overlay goes,
and the page stays balanced. -/
theorem balanced_fire_hide (tm : Timer PageCb) (s : Page) (h : Balanced s)
    (htm : tm ∈ s.pending) (hcb : tm.cb = PageCb.hide) :
    Balanced (Loop.fire pageExec tm s) ∧
    overlayCount (Loop.fire pageExec tm s) + 1 = overlayCount s := by
  obtain ⟨hb, hflat, hnd, hlt⟩ := h
  have hmem : tm ∈ s.pending.filter (fun tm => tm.cb == PageCb.hide) :=
    List.mem_filter.mpr ⟨htm, by simp [hcb]⟩
  have hlen := length_filter_ne_of_nodup hnd hmem
  have hpos : 0 < s.st.doc.count (hasClass "loading-overlay") := by
    simp only [overlayCount, hideTimers] at hb
    rw [hb]
    exact List.length_pos_of_mem hmem
  have hsome : ∃ x, s.st.doc.first (hasClass "loading-overlay") = some x := by
    cases hf : s.st.doc.first (hasClass "loading-overlay") with
    | none =>
      have := (Forest.first_eq_none_iff _ _).mp hf
      omega
    | some x => exact ⟨x, rfl⟩
  obtain ⟨x, hx⟩ := hsome
  have hcount := Forest.count_removeFirst_flat _ _ hflat hpos
  have hfire : Loop.fire pageExec tm s =
      { s with now := max s.now tm.due,
               pending := s.pending.filter (fun y => y.id != tm.id),
               st := { s.st with doc := s.st.doc.removeFirst (hasClass "loading-overlay") } } := by
    simp [Loop.fire, hcb, pageExec, hideLoadingState, hx]
  rw [hfire]
  refine ⟨⟨?_, ?_, ?_, ?_⟩, ?_⟩
  · simp only [overlayCount, hideTimers] at hb ⊢
    simp only [filter_hide_filter_ne]
    omega
  · exact Forest.flat_removeFirst _ _ hflat
  · simp only [filter_hide_filter_ne]
    exact (List.Nodup.sublist (List.Sublist.map _ (List.filter_sublist _)) hnd)
  · intro y hy hycb
    exact hlt y (List.mem_of_mem_filter hy) hycb
  · simp only [overlayCount]
    exact hcount

theorem balanced_step (op : PageOp) (s : Page) (h : Balanced s) (hok : searchOnly s op) :
    Balanced (Page.step op s) := by
  cases op with
  | tick dt => exact balanced_tick dt s h
  | performSearch q => exact balanced_performSearch q s h
  | fire id =>
    simp only [Page.step]
    cases hf : s.pending.find? (fun tm => tm.id == id) with
    | none => exact h
    | some tm =>
      simp only
      split
      · exact (balanced_fire_hide tm s h (List.mem_of_find?_eq_some hf) (hok tm hf)).1
      · exact h
  | input v => exact absurd hok (by simp [searchOnly])
  | assign v => exact absurd hok (by simp [searchOnly])
  | showLoadingState => exact absurd hok (by simp [searchOnly])
  | hideLoadingState => exact absurd hok (by simp [searchOnly])
  | showToast m t d => exact absurd hok (by simp [searchOnly])

theorem balanced_run :
    ∀ (ops : List PageOp) (s : Page), Balanced s → Page.Admits searchOnly ops s →
      Balanced (Page.run ops s)
  | [], s, h, _ => by simpa [Page.run] using h
  | op :: ops, s, h, hadm => by
    simp only [Page.run]
    exact balanced_run ops _ (balanced_step op s h hadm.1) hadm.2

/-- Punctual timers on a balanced page with hide timers only: the page stays
balanced, no timer is added, the clock does not pass `t`. -/
theorem hideOnly_runDue (fuel t : Nat) :
    ∀ s : Page, Balanced s → (∀ tm ∈ s.pending, tm.cb = PageCb.hide) →
      Balanced (Loop.runDue pageExec fuel t s) ∧
      (Loop.runDue pageExec fuel t s).pending.Sublist s.pending ∧
      (Loop.runDue pageExec fuel t s).now ≤ max s.now t := by
  induction fuel with
  | zero =>
    intro s hb _
    exact ⟨hb, List.Sublist.refl _, Nat.le_max_left _ _⟩
  | succ n ih =>
    intro s hb hh
    simp only [Loop.runDue]
    cases he : earliest s.pending with
    | none => exact ⟨hb, List.Sublist.refl _, Nat.le_max_left _ _⟩
    | some m =>
      by_cases hd : m.due ≤ t
      · simp only [hd, if_true]
        have hm := earliest_mem he
        have hcb := hh m hm
        have hfire := (balanced_fire_hide m s hb hm hcb).1
        have hpend : (Loop.fire pageExec m s).pending
            = s.pending.filter (fun x => x.id != m.id) := by
          simp [Loop.fire, hcb, pageExec, hideLoadingState_pending]
        have hnow : (Loop.fire pageExec m s).now = max s.now m.due := by
          simp [Loop.fire, hcb, pageExec, hideLoadingState_now]
        have hsub : (Loop.fire pageExec m s).pending.Sublist s.pending := by
          rw [hpend]; exact List.filter_sublist _
        obtain ⟨h1, h2, h3⟩ := ih (Loop.fire pageExec m s) hfire
          (fun tm htm => hh tm (hsub.subset htm))
        refine ⟨h1, h2.trans hsub, ?_⟩
        rw [hnow] at h3
        omega
      · simp only [hd, if_false]
        exact ⟨hb, List.Sublist.refl _, Nat.le_max_left _ _⟩

theorem settling_advance (b t : Nat) (s : Page) (h : Settling b s) (hbt : b ≤ t) :
    Balanced (pageAdvance t s) ∧ (pageAdvance t s).pending = [] ∧ (pageAdvance t s).now = t := by
  obtain ⟨hb, _, hn, hh⟩ := h
  obtain ⟨h1, h2, h3⟩ := hideOnly_runDue (2 * s.pending.length) t s hb (fun tm htm => (hh tm htm).1)
  have hq := pageAdvance_quiet t s
  have hnil : (Loop.runDue pageExec (2 * s.pending.length) t s).pending = [] := by
    cases hp : (Loop.runDue pageExec (2 * s.pending.length) t s).pending with
    | nil => rfl
    | cons x xs =>
      have hx : x ∈ (pageAdvance t s).pending := by
        simp [pageAdvance, Loop.advance, hp]
      have h4 := hq x hx
      have h5 := (hh x (h2.subset (by rw [hp]; exact List.mem_cons_self _ _))).2
      omega
  refine ⟨h1, ?_, ?_⟩
  · simpa [pageAdvance, Loop.advance] using hnil
  · simp only [pageAdvance, Loop.advance]
    omega

theorem settling_call (b t : Nat) (q : String) (s : Page) (h : Settling b s) (hbt : b ≤ t) :
    Settling (t + 500) (performSearch q (pageAdvance t s)) := by
  obtain ⟨h1, h2, h3⟩ := settling_advance b t s h hbt
  have hbal := balanced_performSearch q _ h1
  refine ⟨hbal, ?_, ?_, ?_⟩
  · simp only [performSearch]
    split
    · simp [h2]
    · simp [Loop.setTimeout, showLoadingState, h2]
  · simp only [performSearch]
    split
    · omega
    · simp [Loop.setTimeout, showLoadingState, h3]
  · intro tm htm
    simp only [performSearch] at htm
    split at htm
    · rw [h2] at htm; cases htm
    · simp [Loop.setTimeout, showLoadingState, h2] at htm
      subst htm
      simp [h3, hostDelay_500]

theorem settling_drive :
    ∀ (cs : List (Nat × String)) (s : Page) (b : Nat), Settling b s →
      (∀ c ∈ cs, b ≤ c.1) → cs.Pairwise (Spaced 500) → ∃ b2, Settling b2 (searchCalls cs s)
  | [], s, b, h, _, _ => ⟨b, h⟩
  | c :: cs, s, b, h, hb, hp => by
    rw [List.pairwise_cons] at hp
    have hstep := settling_call b c.1 c.2 s h (hb c (List.mem_cons_self _ _))
    have := settling_drive cs _ (c.1 + 500) hstep (fun d hd => hp.1 d hd) hp.2
    simpa [searchCalls, Loop.drive] using this

theorem settling_le_one (b T : Nat) (s : Page) (h : Settling b s) :
    overlayCount (pageAdvance T s) ≤ 1 := by
  obtain ⟨hb, hlen, _, hh⟩ := h
  obtain ⟨h1, h2, _⟩ := hideOnly_runDue (2 * s.pending.length) T s hb (fun tm htm => (hh tm htm).1)
  have hc : overlayCount (pageAdvance T s)
      = hideTimers (Loop.runDue pageExec (2 * s.pending.length) T s) := h1.1
  have hle := List.length_filter_le (fun tm : Timer PageCb => tm.cb == PageCb.hide)
    (Loop.runDue pageExec (2 * s.pending.length) T s).pending
  have := h2.length_le
  rw [hc]
  simp only [hideTimers]
  omega

/-- C3, as the code has it.  `showLoadingState` does not query the document:
every call appends one more `.loading-overlay` element, whatever the document
already holds.  Starting from a document without an overlay, at most one
overlay exists after every series of time passing, hide-timer firings and
calls of `performSearch`, `showLoadingState` and `hideLoadingState` in which
no operation adds an overlay while one is present.  With punctual timers and
no timer pending at the start, that is the case at every instant when any two
calls of `performSearch` are at least 500 ms apart. -/
theorem overlay_singleton_unless_stacked (ops : List PageOp) (s : Page)
    (h0 : overlayCount s = 0)
    (hadm : Page.Admits (fun s op => overlayOnly s op ∧ notStacked s op) ops s) :
    (∀ s2 : Page, overlayCount (showLoadingState s2) = overlayCount s2 + 1) ∧
    overlayCount (Page.run ops s) ≤ 1 ∧
    (s.pending = [] → ∀ (cs : List (Nat × String)) (T : Nat),
      cs.Pairwise (Spaced 500) → (∀ c ∈ cs, s.now ≤ c.1) →
      overlayCount (pageAdvance T (searchCalls cs s)) ≤ 1) := by
  refine ⟨overlayCount_showLoadingState, overlay_le_one_of_notStacked ops s (by omega) hadm, ?_⟩
  intro hp cs T hsp hnow
  have hset : Settling s.now s :=
    ⟨balanced_of_zero s h0 (by simp [hideTimers, hp]), by simp [hp], Nat.le_refl _,
      by simp [hp]⟩
  obtain ⟨b2, h2⟩ := settling_drive cs s s.now hset hnow hsp
  exact settling_le_one b2 T _ h2

/-- C3 as amended, on a page just loaded: a search, its hide timer fired
after 500 ms, then a second search leave one overlay; and three searches at
0, 500 and 1200 ms leave one overlay at 1300 ms. -/
theorem overlay_singleton_unless_stacked_witness :
    overlayCount (Page.run [.performSearch "ab", .tick 500, .fire 1, .performSearch "cd"]
      (Page.init .nil 1 "")) ≤ 1 ∧
    overlayCount (pageAdvance 1300
      (searchCalls [(0, "ab"), (500, "cd"), (1200, "ef")] (Page.init .nil 1 ""))) ≤ 1 := by
  have h := overlay_singleton_unless_stacked
    [.performSearch "ab", .tick 500, .fire 1, .performSearch "cd"] (Page.init .nil 1 "")
    (by decide) (by simp only [Page.Admits, overlayOnly, notStacked]; decide)
  exact ⟨h.2.1, h.2.2 rfl [(0, "ab"), (500, "cd"), (1200, "ef")] 1300
    (by simp [Spaced]) (by simp [Page.init])⟩

/-- C3 as stated fails: on a page just loaded with an empty document, two
searches in a row leave two `.loading-overlay` elements, and so do, with
punctual timers, searches at 0 and at 100 ms, seen at 100 ms. -/
theorem overlay_singleton_counterexample :
    overlayCount (Page.init .nil 1 "") = 0 ∧
    ¬ overlayCount (Page.run [.performSearch "ab", .performSearch "cd"] (Page.init .nil 1 "")) ≤ 1 ∧
    ¬ overlayCount (pageAdvance 100
        (searchCalls [(0, "ab"), (100, "cd")] (Page.init .nil 1 ""))) ≤ 1 := by
  decide

/-- C10. The page starts with no `.loading-overlay` element and no pending
hide timer, and what happens to it is only time passing, calls of
`performSearch`, and the host running hide timers.  Then after every such
series the number of overlays equals the number of pending hide timers; the
firing of any pending hide timer removes exactly one overlay; and when no hide
timer is pending, no overlay is left. -/
theorem overlay_timer_balance (ops : List PageOp) (s : Page)
    (h0 : overlayCount s = 0) (ht : hideTimers s = 0) (hadm : Page.Admits searchOnly ops s) :
    overlayCount (Page.run ops s) = hideTimers (Page.run ops s) ∧
    (∀ tm ∈ (Page.run ops s).pending, tm.cb = PageCb.hide →
      overlayCount (Loop.fire pageExec tm (Page.run ops s)) + 1 = overlayCount (Page.run ops s)) ∧
    (hideTimers (Page.run ops s) = 0 → overlayCount (Page.run ops s) = 0) := by
  have hbal := balanced_run ops s (balanced_of_zero s h0 ht) hadm
  refine ⟨hbal.1, ?_, ?_⟩
  · intro tm htm hcb
    exact (balanced_fire_hide tm _ hbal htm hcb).2
  · intro hz
    rw [hbal.1, hz]

/-- C10 on a page just loaded: two searches, 500 ms, then the first hide
timer fires; one overlay and one hide timer are left. -/
theorem overlay_timer_balance_witness :
    overlayCount (Page.run [.performSearch "ab", .performSearch "cd", .tick 500, .fire 1]
        (Page.init .nil 1 "")) = 1 ∧
    hideTimers (Page.run [.performSearch "ab", .performSearch "cd", .tick 500, .fire 1]
        (Page.init .nil 1 "")) = 1 := by
  have h := (overlay_timer_balance
    [.performSearch "ab", .performSearch "cd", .tick 500, .fire 1] (Page.init .nil 1 "")
    (by decide) (by decide)
    (by simp [Page.Admits, searchOnly, Page.step, performSearch, showLoadingState,
          Loop.setTimeout, Page.init]; decide)).1
  have hc : hideTimers (Page.run [.performSearch "ab", .performSearch "cd", .tick 500, .fire 1]
        (Page.init .nil 1 "")) = 1 := by decide
  exact ⟨by rw [h, hc], hc⟩

example : (pageAdvance 1000 (Page.step (.assign "xyz") (pageAdvance 250
    (searchInputs [(0, "a"), (100, "ab"), (200, "abc")] (Page.init .nil 1 ""))))).st.searched
    = [(500, "xyz")] := by
  decide

/-! ## Search field -/

theorem hide_beq_search : (PageCb.hide == PageCb.search) = false := by decide

theorem removeToast_beq_search (n : Nat) : (PageCb.removeToast n == PageCb.search) = false := by
  simp

theorem filter_filter_comm {β : Type} (p q : β → Bool) (l : List β) :
    (l.filter p).filter q = (l.filter q).filter p := by
  rw [List.filter_filter, List.filter_filter]
  congr 1
  funext x
  exact Bool.and_comm _ _

theorem searchSingle_of_sublist (s s2 : Page) (h : SearchSingle s)
    (hto : s2.st.searchTimeout = s.st.searchTimeout)
    (hsub : (s2.pending.filter (fun tm => tm.cb == PageCb.search)).Sublist
      (s.pending.filter (fun tm => tm.cb == PageCb.search))) :
    SearchSingle s2 := by
  rcases h with h | ⟨tm, h, ht⟩
  · rw [h] at hsub
    exact Or.inl (List.sublist_nil.mp hsub)
  · rw [h] at hsub
    cases h2 : s2.pending.filter (fun tm => tm.cb == PageCb.search) with
    | nil => exact Or.inl h2
    | cons x xs =>
      rw [h2] at hsub
      have hlen := hsub.length_le
      have hxs : xs = [] := by
        cases xs with
        | nil => rfl
        | cons y ys => simp at hlen
      subst hxs
      have hx : x = tm := by
        have := hsub.subset (List.mem_singleton_self x)
        simpa using this
      subst hx
      exact Or.inr ⟨x, h2, by rw [hto, ht]⟩

theorem performSearch_filter_search (q : String) (s : Page) :
    (performSearch q s).pending.filter (fun tm => tm.cb == PageCb.search)
      = s.pending.filter (fun tm => tm.cb == PageCb.search) := by
  simp only [performSearch]
  split
  · rfl
  · simp [Loop.setTimeout, showLoadingState, List.filter_append, List.filter, hide_beq_search]

theorem performSearch_searchTimeout (q : String) (s : Page) :
    (performSearch q s).st.searchTimeout = s.st.searchTimeout := by
  simp only [performSearch]
  split
  · rfl
  · simp [Loop.setTimeout, showLoadingState]

theorem performSearch_searchValue (q : String) (s : Page) :
    (performSearch q s).st.searchValue = s.st.searchValue := by
  simp only [performSearch]
  split
  · rfl
  · simp [Loop.setTimeout, showLoadingState]

theorem performSearch_searched (q : String) (s : Page) :
    (performSearch q s).st.searched = s.st.searched := by
  simp only [performSearch]
  split
  · rfl
  · simp [Loop.setTimeout, showLoadingState]

theorem performSearch_now (q : String) (s : Page) : (performSearch q s).now = s.now := by
  simp only [performSearch]
  split
  · rfl
  · simp [Loop.setTimeout, showLoadingState]

theorem performSearch_pushes (q : String) (s : Page) : Pushes s (performSearch q s) := by
  simp only [performSearch]
  split
  · exact Or.inl ⟨rfl, rfl⟩
  · exact Or.inr ⟨_, _, rfl, rfl⟩

theorem ensureToastContainer_pending (s : Page) :
    (ensureToastContainer s).pending = s.pending := by
  simp only [ensureToastContainer]; split <;> rfl

theorem ensureToastContainer_nextId (s : Page) :
    (ensureToastContainer s).nextId = s.nextId := by
  simp only [ensureToastContainer]; split <;> rfl

theorem ensureToastContainer_now (s : Page) :
    (ensureToastContainer s).now = s.now := by
  simp only [ensureToastContainer]; split <;> rfl

theorem ensureToastContainer_searchTimeout (s : Page) :
    (ensureToastContainer s).st.searchTimeout = s.st.searchTimeout := by
  simp only [ensureToastContainer]; split <;> rfl

theorem showToast_pushes (m : String) (t : Option String) (d : Option Nat) (c : Forest)
    (s : Page) : Pushes s (showToast m t d c s) := by
  refine Or.inr ⟨(ensureToastContainer s).now + hostDelay (d.getD 5000),
    PageCb.removeToast (toastElem (ensureToastContainer s).st.nextNid m (t.getD "info")).nid,
    ?_, ?_⟩
  · simp only [showToast, Loop.setTimeout, ensureToastContainer_pending,
      ensureToastContainer_nextId]
  · simp only [showToast, Loop.setTimeout, ensureToastContainer_nextId]

theorem pageExec_pushes (cb : PageCb) (s : Page) : Pushes s (pageExec cb s) := by
  cases cb with
  | search => exact performSearch_pushes _ _
  | hide => exact Or.inl ⟨hideLoadingState_pending s, hideLoadingState_nextId s⟩
  | removeToast n => exact Or.inl ⟨rfl, rfl⟩

theorem pageExec_now (cb : PageCb) (s : Page) : (pageExec cb s).now = s.now := by
  cases cb with
  | search => simp [pageExec, searchCall, performSearch_now]
  | hide => exact hideLoadingState_now s
  | removeToast n => rfl

theorem timersFresh_push (s s2 : Page) (h : TimersFresh s) (hp : Pushes s s2) :
    TimersFresh s2 := by
  obtain ⟨hnd, hlt⟩ := h
  rcases hp with ⟨h1, h2⟩ | ⟨d, cb, h1, h2⟩
  · refine ⟨by rw [h1]; exact hnd, ?_⟩
    intro tm htm
    rw [h1] at htm
    rw [h2]
    exact hlt tm htm
  · refine ⟨?_, ?_⟩
    · rw [h1, List.map_append, List.nodup_append]
      refine ⟨hnd, by simp, ?_⟩
      intro a ha hb
      simp at hb
      subst hb
      obtain ⟨tm, htm, hid⟩ := List.mem_map.mp ha
      have := hlt tm htm
      omega
    · intro tm htm
      rw [h1, List.mem_append] at htm
      rw [h2]
      rcases htm with htm | htm
      · have := hlt tm htm
        omega
      · simp at htm
        subst htm
        simp

theorem timersFresh_sub (s s2 : Page) (h : TimersFresh s)
    (hsub : s2.pending.Sublist s.pending) (hid : s2.nextId = s.nextId) : TimersFresh s2 := by
  obtain ⟨hnd, hlt⟩ := h
  refine ⟨List.Nodup.sublist (List.Sublist.map _ hsub) hnd, ?_⟩
  intro tm htm
  rw [hid]
  exact hlt tm (hsub.subset htm)

theorem timersFresh_fire (tm : Timer PageCb) (s : Page) (h : TimersFresh s) :
    TimersFresh (Loop.fire pageExec tm s) := by
  apply timersFresh_push _ _ _ (pageExec_pushes tm.cb _)
  exact timersFresh_sub s
    { s with now := max s.now tm.due, pending := s.pending.filter (fun x => x.id != tm.id) } h
    (List.filter_sublist _) rfl

theorem timersFresh_input (v : String) (s : Page) (h : TimersFresh s) :
    TimersFresh (Page.step (.input v) s) := by
  have h1 : TimersFresh ((({ s with st := { s.st with searchValue := v } } : Page).clearTimeout
      s.st.searchTimeout)) := by
    cases hto : s.st.searchTimeout with
    | none => exact h
    | some i =>
      exact timersFresh_sub s _ h (by simp [Loop.clearTimeout]) rfl
  apply timersFresh_push _ _ h1
  exact Or.inr ⟨_, _, rfl, rfl⟩

theorem timersFresh_step (op : PageOp) (s : Page) (h : TimersFresh s) :
    TimersFresh (Page.step op s) := by
  cases op with
  | tick dt => exact h
  | assign v => exact h
  | fire id =>
    simp only [Page.step]
    split
    · split
      · exact timersFresh_fire _ s h
      · exact h
    · exact h
  | input v => exact timersFresh_input v s h
  | performSearch q => exact timersFresh_push _ _ h (performSearch_pushes q s)
  | showLoadingState => exact h
  | hideLoadingState =>
    exact timersFresh_push _ _ h (Or.inl ⟨hideLoadingState_pending s, hideLoadingState_nextId s⟩)
  | showToast m t d c => exact timersFresh_push _ _ h (showToast_pushes m t d c s)

theorem timersFresh_run :
    ∀ (ops : List PageOp) (s : Page), TimersFresh s → TimersFresh (Page.run ops s)
  | [], _, h => h
  | op :: ops, s, h => timersFresh_run ops _ (timersFresh_step op s h)

theorem searchSingle_pageExec (cb : PageCb) (s : Page) (h : SearchSingle s) :
    SearchSingle (pageExec cb s) := by
  cases cb with
  | search =>
    apply searchSingle_of_sublist s _ h
    · simp [pageExec, searchCall, performSearch_searchTimeout]
    · simp only [pageExec, searchCall, performSearch_filter_search]
      exact List.Sublist.refl _
  | hide =>
    apply searchSingle_of_sublist s _ h
    · simp [pageExec, hideLoadingState_searchTimeout]
    · simp only [pageExec, hideLoadingState_pending]
      exact List.Sublist.refl _
  | removeToast n => exact h

theorem searchSingle_fire (tm : Timer PageCb) (s : Page) (h : SearchSingle s) :
    SearchSingle (Loop.fire pageExec tm s) := by
  apply searchSingle_pageExec
  refine searchSingle_of_sublist s
    { s with now := max s.now tm.due,
             pending := s.pending.filter (fun x => x.id != tm.id) } h rfl ?_
  rw [filter_filter_comm]
  exact List.filter_sublist _

theorem searchSingle_input (v : String) (s : Page) (h : SearchSingle s) :
    (Page.step (.input v) s).pending.filter (fun tm => tm.cb == PageCb.search)
        = [⟨s.nextId, s.now + 300, PageCb.search⟩] ∧
    (Page.step (.input v) s).st.searchTimeout = some s.nextId := by
  rcases h with h | ⟨tm, h, ht⟩
  · cases hto : s.st.searchTimeout with
    | none =>
      simp [Page.step, onSearchInput, Loop.clearTimeout, Loop.setTimeout, hto,
        List.filter_append, h, List.filter, hostDelay_300]
    | some i =>
      have hsub : (s.pending.filter (fun x => x.id != i)).filter
          (fun tm => tm.cb == PageCb.search) = [] := by
        rw [filter_filter_comm, h]; rfl
      simp only [Page.step, onSearchInput, Loop.clearTimeout, Loop.setTimeout, hto,
        List.filter_append, hsub, hostDelay_300]
      simp [List.filter]
  · have hsub : (s.pending.filter (fun x => x.id != tm.id)).filter
        (fun tm => tm.cb == PageCb.search) = [] := by
      rw [filter_filter_comm, h]; simp [List.filter]
    simp only [Page.step, onSearchInput, Loop.clearTimeout, Loop.setTimeout, ht,
      List.filter_append, hsub, hostDelay_300]
    simp [List.filter]

theorem searchSingle_step (op : PageOp) (s : Page) (h : SearchSingle s) :
    SearchSingle (Page.step op s) := by
  cases op with
  | tick dt => exact h
  | assign v => exact h
  | fire id =>
    simp only [Page.step]
    split
    · split
      · exact searchSingle_fire _ s h
      · exact h
    · exact h
  | input v =>
    obtain ⟨h1, h2⟩ := searchSingle_input v s h
    exact Or.inr ⟨_, h1, h2⟩
  | performSearch q =>
    apply searchSingle_of_sublist s _ h (performSearch_searchTimeout q s)
    simp only [Page.step, performSearch_filter_search]
    exact List.Sublist.refl _
  | showLoadingState => exact h
  | hideLoadingState =>
    apply searchSingle_of_sublist s _ h (hideLoadingState_searchTimeout s)
    simp only [Page.step, hideLoadingState_pending]
    exact List.Sublist.refl _
  | showToast m t d c =>
    apply searchSingle_of_sublist s _ h
    · simp [Page.step, showToast, Loop.setTimeout, ensureToastContainer_searchTimeout]
    · simp [Page.step, showToast, Loop.setTimeout, ensureToastContainer_pending,
        List.filter_append, List.filter, removeToast_beq_search]

theorem searchSingle_run :
    ∀ (ops : List PageOp) (s : Page), SearchSingle s → SearchSingle (Page.run ops s)
  | [], _, h => h
  | op :: ops, s, h => searchSingle_run ops _ (searchSingle_step op s h)

theorem searchTimers_le_one (s : Page) (h : SearchSingle s) : searchTimers s ≤ 1 := by
  rcases h with h | ⟨tm, h, _⟩ <;> simp [searchTimers, h]

theorem id_ne_of_nodup {l : List (Timer PageCb)} (hnd : (l.map (fun tm => tm.id)).Nodup)
    {x m : Timer PageCb} (hx : x ∈ l) (hm : m ∈ l) (hne : x ≠ m) : x.id ≠ m.id :=
  fun h => hne (List.inj_on_of_nodup_map hnd hx hm h)

/-- Taking a timer that is not a search timer out of the queue leaves the
search timers in it. -/
theorem filter_search_fire (m : Timer PageCb) (s : Page) (hf : TimersFresh s)
    (hm : m ∈ s.pending) (hcb : m.cb ≠ PageCb.search) :
    (s.pending.filter (fun x => x.id != m.id)).filter (fun tm => tm.cb == PageCb.search)
      = s.pending.filter (fun tm => tm.cb == PageCb.search) := by
  rw [filter_filter_comm]
  apply List.filter_eq_self.mpr
  intro x hx
  obtain ⟨hx1, hx2⟩ := List.mem_filter.mp hx
  have hne : x ≠ m := fun h => hcb (by rw [← h]; simpa using hx2)
  simpa using id_ne_of_nodup hf.1 hx1 hm hne

theorem hideLoadingState_nextNid (s : Page) :
    (hideLoadingState s).st.nextNid = s.st.nextNid := by
  simp only [hideLoadingState]; split <;> rfl

/-- What a timer other than a search timer leaves alone when it fires. -/
theorem fire_other (m : Timer PageCb) (s : Page) (hcb : m.cb ≠ PageCb.search) :
    (Loop.fire pageExec m s).pending = s.pending.filter (fun x => x.id != m.id) ∧
    (Loop.fire pageExec m s).st.searched = s.st.searched ∧
    (Loop.fire pageExec m s).st.searchTimeout = s.st.searchTimeout ∧
    (Loop.fire pageExec m s).st.searchValue = s.st.searchValue ∧
    (Loop.fire pageExec m s).st.nextNid = s.st.nextNid ∧
    (Loop.fire pageExec m s).now = max s.now m.due := by
  cases h : m.cb with
  | search => exact absurd h hcb
  | hide =>
    simp [Loop.fire, h, pageExec, hideLoadingState_pending, hideLoadingState_searched,
      hideLoadingState_searchTimeout, hideLoadingState_searchValue, hideLoadingState_nextNid,
      hideLoadingState_now]
  | removeToast n => simp [Loop.fire, h, pageExec]

/-- With no search timer pending, punctual timers make no search call and
create no element. -/
theorem runDue_searched (fuel t : Nat) :
    ∀ s : Page, s.pending.filter (fun tm => tm.cb == PageCb.search) = [] →
      (Loop.runDue pageExec fuel t s).st.searched = s.st.searched ∧
      (Loop.runDue pageExec fuel t s).st.nextNid = s.st.nextNid := by
  induction fuel with
  | zero => intro s _; exact ⟨rfl, rfl⟩
  | succ n ih =>
    intro s hs
    simp only [Loop.runDue]
    cases he : earliest s.pending with
    | none => exact ⟨rfl, rfl⟩
    | some m =>
      by_cases hd : m.due ≤ t
      · simp only [hd, if_true]
        have hm := earliest_mem he
        have hcb : m.cb ≠ PageCb.search := fun h => by
          have : m ∈ s.pending.filter (fun tm => tm.cb == PageCb.search) :=
            List.mem_filter.mpr ⟨hm, by simp [h]⟩
          rw [hs] at this
          cases this
        obtain ⟨h1, h2, _, _, h5, _⟩ := fire_other m s hcb
        have hfil : (Loop.fire pageExec m s).pending.filter
            (fun tm => tm.cb == PageCb.search) = [] := by
          rw [h1, filter_filter_comm, hs]; rfl
        obtain ⟨i1, i2⟩ := ih _ hfil
        exact ⟨i1.trans h2, i2.trans h5⟩
      · simp only [if_neg hd]
        exact ⟨trivial, trivial⟩

/-- Punctual timers keep the two invariants of the timer queue, and the
clock does not pass `t`. -/
theorem runDue_keeps (fuel t : Nat) :
    ∀ s : Page, SearchSingle s → TimersFresh s →
      SearchSingle (Loop.runDue pageExec fuel t s) ∧
      TimersFresh (Loop.runDue pageExec fuel t s) ∧
      (Loop.runDue pageExec fuel t s).now ≤ max s.now t := by
  induction fuel with
  | zero => intro s h1 h2; exact ⟨h1, h2, Nat.le_max_left _ _⟩
  | succ n ih =>
    intro s h1 h2
    simp only [Loop.runDue]
    cases he : earliest s.pending with
    | none => exact ⟨h1, h2, Nat.le_max_left _ _⟩
    | some m =>
      by_cases hd : m.due ≤ t
      · simp only [hd, if_true]
        obtain ⟨i1, i2, i3⟩ := ih _ (searchSingle_fire m s h1) (timersFresh_fire m s h2)
        refine ⟨i1, i2, ?_⟩
        have : (Loop.fire pageExec m s).now = max s.now m.due := by
          simp [Loop.fire, pageExec_now]
        rw [this] at i3
        omega
      · simp only [hd, if_false]
        exact ⟨h1, h2, Nat.le_max_left _ _⟩

/-- While no search timer is due, punctual timers leave the search timers,
the search record, `searchTimeout`, the field value and the element counter
as they are. -/
theorem runDue_no_search_due (fuel t : Nat) :
    ∀ s : Page, TimersFresh s →
      (∀ tm ∈ s.pending, tm.cb = PageCb.search → t < tm.due) →
      TimersFresh (Loop.runDue pageExec fuel t s) ∧
      (Loop.runDue pageExec fuel t s).pending.filter (fun tm => tm.cb == PageCb.search)
        = s.pending.filter (fun tm => tm.cb == PageCb.search) ∧
      (Loop.runDue pageExec fuel t s).st.searched = s.st.searched ∧
      (Loop.runDue pageExec fuel t s).st.searchTimeout = s.st.searchTimeout ∧
      (Loop.runDue pageExec fuel t s).st.searchValue = s.st.searchValue ∧
      (Loop.runDue pageExec fuel t s).st.nextNid = s.st.nextNid ∧
      (Loop.runDue pageExec fuel t s).now ≤ max s.now t := by
  induction fuel with
  | zero => intro s h _; exact ⟨h, rfl, rfl, rfl, rfl, rfl, Nat.le_max_left _ _⟩
  | succ n ih =>
    intro s hf hs
    simp only [Loop.runDue]
    cases he : earliest s.pending with
    | none => exact ⟨hf, rfl, rfl, rfl, rfl, rfl, Nat.le_max_left _ _⟩
    | some m =>
      by_cases hd : m.due ≤ t
      · simp only [hd, if_true]
        have hm := earliest_mem he
        have hcb : m.cb ≠ PageCb.search := fun h => by
          have := hs m hm h
          omega
        obtain ⟨h1, h2, h3, h4, h5, h6⟩ := fire_other m s hcb
        have hs2 : ∀ tm ∈ (Loop.fire pageExec m s).pending, tm.cb = PageCb.search → t < tm.due := by
          intro tm htm
          rw [h1] at htm
          exact hs tm (List.mem_of_mem_filter htm)
        obtain ⟨i0, i1, i2, i3, i4, i5, i6⟩ := ih _ (timersFresh_fire m s hf) hs2
        refine ⟨i0, ?_, i2.trans h2, i3.trans h3, i4.trans h4, i5.trans h5, ?_⟩
        · rw [i1, h1]
          exact filter_search_fire m s hf hm hcb
        · rw [h6] at i6
          omega
      · simp only [if_neg hd]
        exact ⟨hf, trivial, trivial, trivial, trivial, trivial, Nat.le_max_left _ _⟩

theorem rank_le_measure (s : Page) (tm : Timer PageCb) (h : tm ∈ s.pending) :
    cbRank tm.cb ≤ pageMeasure s := by
  have := sum_rank_filter_ne s.pending tm h
  simp only [pageMeasure]
  omega

/-- The one pending search timer, due at `d`, fires at `d`: its closure calls
`performSearch` once, with the value the field holds then, and the call
creates an element exactly when that value has two UTF-16 code units or
more. -/
theorem runDue_fires_search (T : Nat) (fuel : Nat) :
    ∀ (s : Page) (i d : Nat), TimersFresh s →
      s.pending.filter (fun tm => tm.cb == PageCb.search) = [⟨i, d, PageCb.search⟩] →
      d ≤ T → s.now ≤ d → pageMeasure s ≤ fuel →
      (Loop.runDue pageExec fuel T s).st.searched
        = s.st.searched ++ [(d, s.st.searchValue)] ∧
      (Loop.runDue pageExec fuel T s).st.nextNid
        = s.st.nextNid + (if jsLength s.st.searchValue < 2 then 0 else 1) := by
  induction fuel with
  | zero =>
    intro s i d _ hfil _ _ hfuel
    have hmem : (⟨i, d, PageCb.search⟩ : Timer PageCb) ∈ s.pending :=
      List.mem_of_mem_filter (by rw [hfil]; exact List.mem_singleton_self _)
    have := rank_le_measure s _ hmem
    simp only [cbRank] at this
    omega
  | succ n ih =>
    intro s i d hf hfil hdT hnow hfuel
    have hmem : (⟨i, d, PageCb.search⟩ : Timer PageCb) ∈ s.pending :=
      List.mem_of_mem_filter (by rw [hfil]; exact List.mem_singleton_self _)
    cases he : earliest s.pending with
    | none =>
      rw [earliest_eq_none.mp he] at hmem
      cases hmem
    | some m =>
      have hm := earliest_mem he
      have hmd : m.due ≤ d := earliest_le he _ hmem
      have hmT : m.due ≤ T := Nat.le_trans hmd hdT
      simp only [Loop.runDue, he, hmT, if_true]
      by_cases hcb : m.cb = PageCb.search
      · have hm0 : m = ⟨i, d, PageCb.search⟩ := by
          have : m ∈ s.pending.filter (fun tm => tm.cb == PageCb.search) :=
            List.mem_filter.mpr ⟨hm, by simp [hcb]⟩
          rw [hfil] at this
          simpa using this
        subst hm0
        have hnone : (Loop.fire pageExec ⟨i, d, PageCb.search⟩ s).pending.filter
            (fun tm => tm.cb == PageCb.search) = [] := by
          simp only [Loop.fire, pageExec, searchCall, performSearch_filter_search]
          rw [filter_filter_comm, hfil]
          simp
        obtain ⟨r1, r2⟩ := runDue_searched n T _ hnone
        rw [r1, r2]
        constructor
        · simp [Loop.fire, pageExec, searchCall, performSearch_searched,
            Nat.max_eq_right hnow]
        · simp only [Loop.fire, pageExec, searchCall, performSearch]
          split <;> simp [Loop.setTimeout, showLoadingState]
      · obtain ⟨h1, h2, _, h4, h5, h6⟩ := fire_other m s hcb
        have hlt := pageMeasure_fire_lt s m hm
        have := ih (Loop.fire pageExec m s) i d (timersFresh_fire m s hf)
          (by rw [h1]; rw [filter_search_fire m s hf hm hcb]; exact hfil) hdT
          (by rw [h6]; omega) (by omega)
        rw [h2, h4, h5] at this
        exact this

theorem pageAdvance_no_search_due (t : Nat) (s : Page) (hf : TimersFresh s)
    (hs : ∀ tm ∈ s.pending, tm.cb = PageCb.search → t < tm.due) (hn : s.now ≤ t) :
    TimersFresh (pageAdvance t s) ∧
    (pageAdvance t s).pending.filter (fun tm => tm.cb == PageCb.search)
      = s.pending.filter (fun tm => tm.cb == PageCb.search) ∧
    (pageAdvance t s).st.searched = s.st.searched ∧
    (pageAdvance t s).st.searchTimeout = s.st.searchTimeout ∧
    (pageAdvance t s).st.searchValue = s.st.searchValue ∧
    (pageAdvance t s).st.nextNid = s.st.nextNid ∧
    (pageAdvance t s).now = t := by
  obtain ⟨h0, h1, h2, h3, h4, h5, h6⟩ :=
    runDue_no_search_due (2 * s.pending.length) t s hf hs
  refine ⟨h0, h1, h2, h3, h4, h5, ?_⟩
  simp only [pageAdvance, Loop.advance]
  omega

theorem searchArmed_input (t : Nat) (v : String) (s : Page) (hs : SearchSingle s)
    (hf : TimersFresh s) (hn : s.now = t) :
    SearchArmed t s.st.searched (Page.step (.input v) s) ∧
    (Page.step (.input v) s).st.searchValue = v ∧
    (Page.step (.input v) s).st.nextNid = s.st.nextNid := by
  obtain ⟨h1, h2⟩ := searchSingle_input v s hs
  refine ⟨⟨?_, timersFresh_input v s hf, ?_, s.nextId, ?_, h2⟩, ?_, ?_⟩
  · cases hto : s.st.searchTimeout <;>
      simp [Page.step, onSearchInput, Loop.clearTimeout, Loop.setTimeout, hto, hn]
  · cases hto : s.st.searchTimeout <;>
      simp [Page.step, onSearchInput, Loop.clearTimeout, Loop.setTimeout, hto]
  · rw [h1, hn]
  · cases hto : s.st.searchTimeout <;>
      simp [Page.step, onSearchInput, Loop.clearTimeout, Loop.setTimeout, hto]
  · cases hto : s.st.searchTimeout <;>
      simp [Page.step, onSearchInput, Loop.clearTimeout, Loop.setTimeout, hto]

theorem searchArmed_due (t : Nat) (E : List (Nat × String)) (s : Page) (h : SearchArmed t E s) :
    ∀ tm ∈ s.pending, tm.cb = PageCb.search → tm.due = t + 300 := by
  obtain ⟨_, _, _, i, hfil, _⟩ := h
  intro tm htm hcb
  have : tm ∈ s.pending.filter (fun tm => tm.cb == PageCb.search) :=
    List.mem_filter.mpr ⟨htm, by simp [hcb]⟩
  rw [hfil] at this
  simp at this
  rw [this]

/-- While the search timer is not yet due, time passing leaves the page
armed. -/
theorem searchArmed_wait (t t2 : Nat) (E : List (Nat × String)) (s : Page)
    (h : SearchArmed t E s) (h1 : t ≤ t2) (h2 : t2 < t + 300) :
    TimersFresh (pageAdvance t2 s) ∧ SearchSingle (pageAdvance t2 s) ∧
    (pageAdvance t2 s).now = t2 ∧ (pageAdvance t2 s).st.searched = E ∧
    (pageAdvance t2 s).st.searchValue = s.st.searchValue ∧
    (pageAdvance t2 s).st.nextNid = s.st.nextNid ∧
    (∃ i, (pageAdvance t2 s).pending.filter (fun tm => tm.cb == PageCb.search)
      = [⟨i, t + 300, PageCb.search⟩] ∧ (pageAdvance t2 s).st.searchTimeout = some i) := by
  have hdue := searchArmed_due t E s h
  obtain ⟨hn, hf, he, i, hfil, hto⟩ := h
  obtain ⟨a0, a1, a2, a3, a4, a5, a6⟩ := pageAdvance_no_search_due t2 s hf
    (fun tm htm hcb => by rw [hdue tm htm hcb]; exact h2) (by omega)
  refine ⟨a0, Or.inr ⟨_, a1.trans hfil, a3.trans hto⟩, a6, a2.trans he, a4, a5, i,
    a1.trans hfil, a3.trans hto⟩

theorem searchArmed_of_armed (t t2 : Nat) (v : String) (E : List (Nat × String)) (s : Page)
    (h : SearchArmed t E s) (h1 : t ≤ t2) (h2 : t2 < t + 300) :
    SearchArmed t2 E (Page.step (.input v) (pageAdvance t2 s)) ∧
    (Page.step (.input v) (pageAdvance t2 s)).st.searchValue = v ∧
    (Page.step (.input v) (pageAdvance t2 s)).st.nextNid = s.st.nextNid := by
  obtain ⟨w0, w1, w2, w3, _, w5, _⟩ := searchArmed_wait t t2 E s h h1 h2
  obtain ⟨b1, b2, b3⟩ := searchArmed_input t2 v (pageAdvance t2 s) w1 w0 w2
  rw [w3] at b1
  exact ⟨b1, b2, b3.trans w5⟩

theorem drive_searchArmed (E : List (Nat × String)) :
    ∀ (cs : List (Nat × String)) (c : Nat × String) (s : Page),
      SearchArmed c.1 E s → s.st.searchValue = c.2 → List.Chain (Burst 300) c cs →
      SearchArmed ((c :: cs).getLast (List.cons_ne_nil _ _)).1 E (searchInputs cs s) ∧
      (searchInputs cs s).st.searchValue = ((c :: cs).getLast (List.cons_ne_nil _ _)).2 ∧
      (searchInputs cs s).st.nextNid = s.st.nextNid
  | [], c, s, h, hv, _ => by simpa [searchInputs, Loop.drive] using ⟨h, hv⟩
  | d :: ds, c, s, h, _, hc => by
    rw [List.chain_cons] at hc
    have hstep := searchArmed_of_armed c.1 d.1 d.2 E s h (Nat.le_of_lt hc.1.1) hc.1.2
    have := drive_searchArmed E ds d _ hstep.1 hstep.2.1 hc.2
    rw [hstep.2.2] at this
    simpa [searchInputs, Loop.drive, List.getLast_cons_cons] using this

/-- The armed search timer fires at `t + 300`, once, and passes the value the
field holds then. -/
theorem searchArmed_final (t tv T : Nat) (s : Page) (hf : TimersFresh s)
    (hn : s.now = tv) (htv : tv < t + 300)
    (hp : ∃ i, s.pending.filter (fun tm => tm.cb == PageCb.search)
      = [⟨i, t + 300, PageCb.search⟩]) :
    (pageAdvance T s).st.searched
      = s.st.searched ++ (if t + 300 ≤ T then [(t + 300, s.st.searchValue)] else []) ∧
    (pageAdvance T s).st.nextNid
      = s.st.nextNid + (if t + 300 ≤ T then (if jsLength s.st.searchValue < 2 then 0 else 1)
          else 0) := by
  obtain ⟨i, hp⟩ := hp
  by_cases hd : t + 300 ≤ T
  · obtain ⟨h1, h2⟩ := runDue_fires_search T (2 * s.pending.length) s i (t + 300) hf hp hd
      (by omega) (pageMeasure_le s)
    simp only [hd, if_true]
    exact ⟨h1, h2⟩
  · have hdue : ∀ tm ∈ s.pending, tm.cb = PageCb.search → T < tm.due := by
      intro tm htm hcb
      have : tm ∈ s.pending.filter (fun tm => tm.cb == PageCb.search) :=
        List.mem_filter.mpr ⟨htm, by simp [hcb]⟩
      rw [hp] at this
      simp at this
      rw [this]
      simp only
      omega
    obtain ⟨_, _, a2, _, _, a5, _⟩ := runDue_no_search_due (2 * s.pending.length) T s hf hdue
    simp only [hd, if_false, List.append_nil, Nat.add_zero]
    exact ⟨a2, a5⟩

/-- C9.  (a) On a page with no pending search timer, after every series of
page operations at most one search timer is pending, and (b) an input event
then leaves exactly one: the new one, due 300 ms after the event (the one
pending before is cancelled).  (c) After any such series, a burst of input
events, each less than 300 ms after the previous one, makes no search timer
call `performSearch` before 300 ms after the last event, and from then on
exactly one call is added to those made before the burst: at that instant,
with the value the field holds from the last event.  (d) When a script writes
`w` into the field after the last event and before the timer fires, the call
is made with `w`: the value is read when the timer fires, not when the event
is handled.  (e) The call is `performSearch` applied to the value noted:
the closure's effect on the page is that of `performSearch(this.value)`, and
(f) in the run of (d) it creates the overlay element exactly when `w` has two
UTF-16 code units or more. -/
theorem search_input_debounced (s : Page) (ops : List PageOp) (hf : TimersFresh s)
    (h0 : searchTimers s = 0) (cs : List (Nat × String)) (hne : cs ≠ [])
    (hburst : cs.Chain' (Burst 300)) (hnow : (Page.run ops s).now ≤ (cs.head hne).1)
    (tv : Nat) (w : String)
    (h1 : (cs.getLast hne).1 ≤ tv) (h2 : tv < (cs.getLast hne).1 + 300) (T : Nat) :
    searchTimers (Page.run ops s) ≤ 1 ∧
    (∀ v, (Page.step (.input v) (Page.run ops s)).pending.filter
        (fun tm => tm.cb == PageCb.search)
      = [⟨(Page.run ops s).nextId, (Page.run ops s).now + 300, PageCb.search⟩]) ∧
    (pageAdvance T (searchInputs cs (Page.run ops s))).st.searched
      = (pageAdvance (cs.head hne).1 (Page.run ops s)).st.searched ++
        (if (cs.getLast hne).1 + 300 ≤ T
         then [((cs.getLast hne).1 + 300, (cs.getLast hne).2)] else []) ∧
    (pageAdvance T (Page.step (.assign w)
        (pageAdvance tv (searchInputs cs (Page.run ops s))))).st.searched
      = (pageAdvance (cs.head hne).1 (Page.run ops s)).st.searched ++
        (if (cs.getLast hne).1 + 300 ≤ T then [((cs.getLast hne).1 + 300, w)] else []) ∧
    (∀ s2 : Page, pageExec PageCb.search s2
      = performSearch s2.st.searchValue
          { s2 with st := { s2.st with
              searched := s2.st.searched ++ [(s2.now, s2.st.searchValue)] } }) ∧
    (pageAdvance T (Page.step (.assign w)
        (pageAdvance tv (searchInputs cs (Page.run ops s))))).st.nextNid
      = (pageAdvance (cs.head hne).1 (Page.run ops s)).st.nextNid +
        (if (cs.getLast hne).1 + 300 ≤ T then (if jsLength w < 2 then 0 else 1) else 0) := by
  have hs0 : SearchSingle s := Or.inl (List.length_eq_zero.mp h0)
  have hrun := searchSingle_run ops s hs0
  have hfr := timersFresh_run ops s hf
  refine ⟨searchTimers_le_one _ hrun, fun v => (searchSingle_input v _ hrun).1, ?_⟩
  cases cs with
  | nil => exact absurd rfl hne
  | cons c rest =>
    simp only [List.head_cons] at hnow ⊢
    -- the page when the first event of the burst arrives
    obtain ⟨k1, k2, k3⟩ := runDue_keeps (2 * (Page.run ops s).pending.length) c.1 _ hrun hfr
    have hnow1 : (pageAdvance c.1 (Page.run ops s)).now = c.1 := by
      simp only [pageAdvance, Loop.advance]
      omega
    obtain ⟨b1, b2, b3⟩ := searchArmed_input c.1 c.2 (pageAdvance c.1 (Page.run ops s))
      k1 k2 hnow1
    obtain ⟨d1, d2, d3⟩ := drive_searchArmed _ rest c _ b1 b2 hburst
    have hdrive : searchInputs (c :: rest) (Page.run ops s)
        = searchInputs rest (Page.step (.input c.2) (pageAdvance c.1 (Page.run ops s))) := by
      simp [searchInputs, Loop.drive]
    rw [hdrive]
    obtain ⟨dn, dfr, dse, i, dfil, _⟩ := d1
    refine ⟨?_, ?_, fun _ => rfl, ?_⟩
    · obtain ⟨f1, _⟩ := searchArmed_final _ _ T _ dfr dn (by omega) ⟨i, dfil⟩
      rw [f1, dse, d2]
    · obtain ⟨w0, _, w2, w3, _, _, j, wfil, _⟩ :=
        searchArmed_wait _ tv _ _ ⟨dn, dfr, dse, i, dfil, by assumption⟩ h1 h2
      obtain ⟨f1, _⟩ := searchArmed_final ((c :: rest).getLast hne).1 tv T
        (Page.step (.assign w) (pageAdvance tv (searchInputs rest
          (Page.step (.input c.2) (pageAdvance c.1 (Page.run ops s))))))
        w0 w2 h2 ⟨j, wfil⟩
      have e1 : (Page.step (.assign w) (pageAdvance tv (searchInputs rest
          (Page.step (.input c.2) (pageAdvance c.1 (Page.run ops s)))))).st.searched
          = (pageAdvance tv (searchInputs rest
          (Page.step (.input c.2) (pageAdvance c.1 (Page.run ops s))))).st.searched := rfl
      have e2 : (Page.step (.assign w) (pageAdvance tv (searchInputs rest
          (Page.step (.input c.2) (pageAdvance c.1 (Page.run ops s)))))).st.searchValue
          = w := rfl
      rw [f1, e1, e2, w3]
    · obtain ⟨w0, _, w2, _, _, w5, j, wfil, _⟩ :=
        searchArmed_wait _ tv _ _ ⟨dn, dfr, dse, i, dfil, by assumption⟩ h1 h2
      obtain ⟨_, f2⟩ := searchArmed_final ((c :: rest).getLast hne).1 tv T
        (Page.step (.assign w) (pageAdvance tv (searchInputs rest
          (Page.step (.input c.2) (pageAdvance c.1 (Page.run ops s))))))
        w0 w2 h2 ⟨j, wfil⟩
      have e1 : (Page.step (.assign w) (pageAdvance tv (searchInputs rest
          (Page.step (.input c.2) (pageAdvance c.1 (Page.run ops s)))))).st.nextNid
          = (pageAdvance tv (searchInputs rest
          (Page.step (.input c.2) (pageAdvance c.1 (Page.run ops s))))).st.nextNid := rfl
      have e2 : (Page.step (.assign w) (pageAdvance tv (searchInputs rest
          (Page.step (.input c.2) (pageAdvance c.1 (Page.run ops s)))))).st.searchValue
          = w := rfl
      rw [f2, e1, e2, w5, d3, b3]

/-- C9 at a concrete run: a search at 0 ms is in flight on the page (its hide
timer is pending), then input events come at 1000, 1100 and 1200 ms, and a
script writes "xyz" into the field at 1250 ms; the one call of
`performSearch` by a search timer comes at 1500 ms with "xyz". -/
theorem search_input_debounced_witness :
    (pageAdvance 2000 (Page.step (.assign "xyz") (pageAdvance 1250
      (searchInputs [(1000, "a"), (1100, "ab"), (1200, "abc")]
        (Page.run [.performSearch "old"] (Page.init .nil 1 "")))))).st.searched
      = [(1500, "xyz")] := by
  have h := (search_input_debounced (Page.init .nil 1 "") [.performSearch "old"]
    (by simp [TimersFresh, Page.init]) (by decide)
    [(1000, "a"), (1100, "ab"), (1200, "abc")] (by simp) (by simp [Burst]) (by decide)
    1250 "xyz" (by simp) (by simp) 2000).2.2.2.1
  have hb : (pageAdvance 1000 (Page.run [.performSearch "old"]
      (Page.init .nil 1 ""))).st.searched = [] := by decide
  simpa [hb] using h

/-! ## Toasts -/

theorem Forest.any_append (p : Elem → Bool) :
    ∀ f g : Forest, (f.append g).any p = (f.any p || g.any p)
  | .nil, g => by simp [Forest.append, Forest.any]
  | .node e k n, g => by
    simp [Forest.append, Forest.any, Forest.any_append p n g, Bool.or_assoc]

theorem Forest.any_iff_elems (p : Elem → Bool) :
    ∀ f : Forest, f.any p = true ↔ ∃ e ∈ f.elems, p e = true
  | .nil => by simp [Forest.any, Forest.elems]
  | .node e k n => by
    have hk := Forest.any_iff_elems p k
    have hn := Forest.any_iff_elems p n
    simp only [Forest.any, Forest.elems, Bool.or_eq_true, hk, hn, List.mem_cons, List.mem_append]
    constructor
    · rintro ((h | ⟨x, hx, hpx⟩) | ⟨x, hx, hpx⟩)
      · exact ⟨e, Or.inl rfl, h⟩
      · exact ⟨x, Or.inr (Or.inl hx), hpx⟩
      · exact ⟨x, Or.inr (Or.inr hx), hpx⟩
    · rintro ⟨x, (rfl | hx | hx), hpx⟩
      · exact Or.inl (Or.inl hpx)
      · exact Or.inl (Or.inr ⟨x, hx, hpx⟩)
      · exact Or.inr ⟨x, hx, hpx⟩

theorem Forest.elems_append : ∀ f g : Forest, (f.append g).elems = f.elems ++ g.elems
  | .nil, g => by simp [Forest.append, Forest.elems]
  | .node e k n, g => by
    simp [Forest.append, Forest.elems, Forest.elems_append n g]

theorem Forest.kidsOf_isSome (p : Elem → Bool) :
    ∀ f : Forest, (f.kidsOf p).isSome = f.any p
  | .nil => by simp [Forest.kidsOf, Forest.any]
  | .node e k n => by
    have hk := Forest.kidsOf_isSome p k
    have hn := Forest.kidsOf_isSome p n
    by_cases he : p e = true
    · simp [Forest.kidsOf, Forest.any, he]
    · cases hkk : k.kidsOf p with
      | none =>
        rw [hkk] at hk
        simp at hk
        simp [Forest.kidsOf, Forest.any, he, hkk, hk, hn]
      | some x =>
        rw [hkk] at hk
        simp at hk
        simp [Forest.kidsOf, Forest.any, he, hkk, hk]

theorem Forest.kidsOf_eq_none (p : Elem → Bool) (f : Forest) (h : f.any p = false) :
    f.kidsOf p = none := by
  have := Forest.kidsOf_isSome p f
  rw [h] at this
  cases hk : f.kidsOf p with
  | none => rfl
  | some x => rw [hk] at this; simp at this

/-- The children of the container after `appendChild`: the former children,
then the new trees. -/
theorem Forest.kidsOf_appendChildTo (p : Elem → Bool) (c : Forest) :
    ∀ f : Forest, (Forest.appendChildTo p c f).kidsOf p = (f.kidsOf p).map (fun k => k.append c)
  | .nil => by simp [Forest.appendChildTo, Forest.kidsOf]
  | .node e k n => by
    have hk := Forest.kidsOf_appendChildTo p c k
    have hn := Forest.kidsOf_appendChildTo p c n
    by_cases he : p e = true
    · simp [Forest.appendChildTo, Forest.kidsOf, he]
    · by_cases hka : k.any p = true
      · have hs := Forest.kidsOf_isSome p k
        rw [hka] at hs
        obtain ⟨x, hx⟩ := Option.isSome_iff_exists.mp hs
        simp [Forest.appendChildTo, Forest.kidsOf, he, hka, hk, hx]
      · have hnone := Forest.kidsOf_eq_none p k (by simpa using hka)
        simp [Forest.appendChildTo, Forest.kidsOf, he, hka, hnone, hn]

theorem Forest.any_appendChildTo (p q : Elem → Bool) (c : Forest) :
    ∀ f : Forest, f.any p = true → (Forest.appendChildTo p c f).any q = (f.any q || c.any q)
  | .nil, h => by simp [Forest.any] at h
  | .node e k n, h => by
    by_cases he : p e = true
    · simp only [Forest.appendChildTo, he, if_true, Forest.any, Forest.any_append]
      cases q e <;> cases k.any q <;> cases c.any q <;> cases n.any q <;> rfl
    · by_cases hka : k.any p = true
      · have := Forest.any_appendChildTo p q c k hka
        simp only [Forest.appendChildTo, he, hka, if_true, Forest.any, this]
        cases q e <;> cases k.any q <;> cases c.any q <;> cases n.any q <;> rfl
      · have hna : n.any p = true := by
          simp only [Forest.any, Bool.or_eq_true] at h
          rcases h with (h | h) | h
          · exact absurd h he
          · exact absurd h hka
          · exact h
        have := Forest.any_appendChildTo p q c n hna
        simp only [Forest.appendChildTo, he, hka, Forest.any, this]
        cases q e <;> cases k.any q <;> cases c.any q <;> cases n.any q <;> rfl

theorem Forest.count_appendChildTo (p q : Elem → Bool) (c : Forest) :
    ∀ f : Forest, f.any p = true → (Forest.appendChildTo p c f).count q = f.count q + c.count q
  | .nil, h => by simp [Forest.any] at h
  | .node e k n, h => by
    by_cases he : p e = true
    · simp only [Forest.appendChildTo, he, if_true, Forest.count, Forest.count_append]
      omega
    · by_cases hka : k.any p = true
      · have := Forest.count_appendChildTo p q c k hka
        simp only [Forest.appendChildTo, he, hka, if_true, Forest.count, this]
        omega
      · have hna : n.any p = true := by
          simp only [Forest.any, Bool.or_eq_true] at h
          rcases h with (h | h) | h
          · exact absurd h he
          · exact absurd h hka
          · exact h
        have := Forest.count_appendChildTo p q c n hna
        simp only [Forest.appendChildTo, he, hka, Forest.count, this]
        omega

theorem Forest.removeFirst_append_leaf (q : Elem → Bool) (t : Elem) (sub : Forest)
    (ht : q t = true) :
    ∀ f : Forest, f.any q = false → (f.append (.node t sub .nil)).removeFirst q = f
  | .nil, _ => by simp [Forest.append, Forest.removeFirst, ht]
  | .node e k n, h => by
    simp only [Forest.any, Bool.or_eq_false_iff] at h
    have := Forest.removeFirst_append_leaf q t sub ht n h.2
    simp [Forest.append, Forest.removeFirst, h.1.1, h.1.2, this]

/-- Appending an element whose identity is new to the tree, with its
subtree, then removing the element of that identity, gives the tree back. -/
theorem Forest.removeFirst_appendChildTo (p q : Elem → Bool) (t : Elem) (sub : Forest)
    (ht : q t = true) :
    ∀ f : Forest, f.any q = false → f.any p = true →
      (Forest.appendChildTo p (.node t sub .nil) f).removeFirst q = f
  | .nil, _, h => by simp [Forest.any] at h
  | .node e k n, hq, h => by
    simp only [Forest.any, Bool.or_eq_false_iff] at hq
    obtain ⟨⟨hqe, hqk⟩, hqn⟩ := hq
    by_cases he : p e = true
    · have happ := Forest.removeFirst_append_leaf q t sub ht k hqk
      have hany : (k.append (.node t sub .nil)).any q = true := by
        simp [Forest.any_append, Forest.any, ht]
      simp [Forest.appendChildTo, he, Forest.removeFirst, hqe, hany, happ]
    · by_cases hka : k.any p = true
      · have ih := Forest.removeFirst_appendChildTo p q t sub ht k hqk hka
        have hany : (Forest.appendChildTo p (.node t sub .nil) k).any q = true := by
          rw [Forest.any_appendChildTo p q _ k hka]
          simp [Forest.any, ht]
        simp [Forest.appendChildTo, he, hka, Forest.removeFirst, hqe, hany, ih]
      · have hna : n.any p = true := by
          simp only [Forest.any, Bool.or_eq_true] at h
          rcases h with (h | h) | h
          · exact absurd h he
          · exact absurd h hka
          · exact h
        have ih := Forest.removeFirst_appendChildTo p q t sub ht n hqn hna
        simp [Forest.appendChildTo, he, hka, Forest.removeFirst, hqe, hqk, ih]

theorem Forest.relabel_le : ∀ (f : Forest) (n : Nat), n ≤ (f.relabel n).2
  | .nil, n => Nat.le_refl n
  | .node e k s, n => by
    have h1 := Forest.relabel_le k (n + 1)
    have h2 := Forest.relabel_le s (k.relabel (n + 1)).2
    simp only [Forest.relabel]
    omega

theorem Forest.relabel_nids : ∀ (f : Forest) (n : Nat),
    ∀ e ∈ (f.relabel n).1.elems, n ≤ e.nid ∧ e.nid < (f.relabel n).2
  | .nil, n => by simp [Forest.relabel, Forest.elems]
  | .node e k s, n => by
    have h1 := Forest.relabel_le k (n + 1)
    have h2 := Forest.relabel_le s (k.relabel (n + 1)).2
    have ik := Forest.relabel_nids k (n + 1)
    have is := Forest.relabel_nids s (k.relabel (n + 1)).2
    intro x hx
    simp only [Forest.relabel, Forest.elems, List.mem_cons, List.mem_append] at hx ⊢
    rcases hx with rfl | hx | hx
    · simp only
      omega
    · have := ik x hx
      omega
    · have := is x hx
      omega

theorem Forest.count_relabel (p : Elem → Bool) (hp : ∀ e m, p { e with nid := m } = p e) :
    ∀ (f : Forest) (n : Nat), (f.relabel n).1.count p = f.count p
  | .nil, n => rfl
  | .node e k s, n => by
    simp only [Forest.relabel, Forest.count, hp, Forest.count_relabel p hp k,
      Forest.count_relabel p hp s]

theorem Forest.mem_elems_removeFirst (p : Elem → Bool) :
    ∀ (f : Forest) (x : Elem), x ∈ (f.removeFirst p).elems → x ∈ f.elems
  | .nil, x, h => by simp [Forest.removeFirst, Forest.elems] at h
  | .node e k n, x, h => by
    simp only [Forest.removeFirst] at h
    simp only [Forest.elems, List.mem_cons, List.mem_append]
    split at h
    · exact Or.inr (Or.inr h)
    · split at h
      · simp only [Forest.elems, List.mem_cons, List.mem_append] at h
        rcases h with h | h | h
        · exact Or.inl h
        · exact Or.inr (Or.inl (Forest.mem_elems_removeFirst p k x h))
        · exact Or.inr (Or.inr h)
      · simp only [Forest.elems, List.mem_cons, List.mem_append] at h
        rcases h with h | h | h
        · exact Or.inl h
        · exact Or.inr (Or.inl h)
        · exact Or.inr (Or.inr (Forest.mem_elems_removeFirst p n x h))

theorem Forest.mem_elems_appendChildTo (p : Elem → Bool) (c : Forest) :
    ∀ (f : Forest) (x : Elem), x ∈ (Forest.appendChildTo p c f).elems →
      x ∈ f.elems ∨ x ∈ c.elems
  | .nil, x, h => by simp [Forest.appendChildTo, Forest.elems] at h
  | .node e k n, x, h => by
    simp only [Forest.appendChildTo] at h
    simp only [Forest.elems, List.mem_cons, List.mem_append]
    split at h
    · simp only [Forest.elems, List.mem_cons, List.mem_append, Forest.elems_append] at h
      rcases h with h | (h | h) | h
      · exact Or.inl (Or.inl h)
      · exact Or.inl (Or.inr (Or.inl h))
      · exact Or.inr h
      · exact Or.inl (Or.inr (Or.inr h))
    · split at h
      · simp only [Forest.elems, List.mem_cons, List.mem_append] at h
        rcases h with h | h | h
        · exact Or.inl (Or.inl h)
        · rcases Forest.mem_elems_appendChildTo p c k x h with h | h
          · exact Or.inl (Or.inr (Or.inl h))
          · exact Or.inr h
        · exact Or.inl (Or.inr (Or.inr h))
      · simp only [Forest.elems, List.mem_cons, List.mem_append] at h
        rcases h with h | h | h
        · exact Or.inl (Or.inl h)
        · exact Or.inl (Or.inr (Or.inl h))
        · rcases Forest.mem_elems_appendChildTo p c n x h with h | h
          · exact Or.inl (Or.inr (Or.inr h))
          · exact Or.inr h

theorem Forest.count_eq_zero_of_forall (p : Elem → Bool) (f : Forest)
    (h : ∀ e ∈ f.elems, p e = false) : f.count p = 0 := by
  apply (Forest.any_eq_false_iff p f).mp
  cases ha : f.any p with
  | false => rfl
  | true =>
    obtain ⟨e, he, hpe⟩ := (Forest.any_iff_elems p f).mp ha
    rw [h e he] at hpe
    cases hpe

theorem Forest.first_mem (p : Elem → Bool) :
    ∀ (f : Forest) (x : Elem), f.first p = some x → x ∈ f.elems ∧ p x = true
  | .nil, x, h => by simp [Forest.first] at h
  | .node e k n, x, h => by
    simp only [Forest.first] at h
    simp only [Forest.elems, List.mem_cons, List.mem_append]
    split at h
    · rename_i he
      simp at h
      subst h
      exact ⟨Or.inl rfl, he⟩
    · cases hk : k.first p with
      | some y =>
        rw [hk] at h
        simp at h
        subst h
        have := Forest.first_mem p k y hk
        exact ⟨Or.inr (Or.inl this.1), this.2⟩
      | none =>
        rw [hk] at h
        have := Forest.first_mem p n x h
        exact ⟨Or.inr (Or.inr this.1), this.2⟩

theorem count_isNode_of_fresh (f : Forest) (m lo : Nat) (hm : m < lo)
    (h : ∀ e ∈ f.elems, lo ≤ e.nid) : f.count (isNode m) = 0 := by
  apply Forest.count_eq_zero_of_forall
  intro e he
  have := h e he
  simp [isNode]
  omega

theorem extends_same (s s2 : Page) (hd : s2.st.doc = s.st.doc)
    (hn : s2.st.nextNid = s.st.nextNid) : Page.Extends s s2 := by
  refine ⟨by omega, ?_, ?_⟩
  · intro e he
    rw [hd] at he
    exact Or.inl he
  · intro m _
    rw [hd]

theorem extends_trans (s s2 s3 : Page) (h1 : Page.Extends s s2) (h2 : Page.Extends s2 s3) :
    Page.Extends s s3 := by
  obtain ⟨a1, a2, a3⟩ := h1
  obtain ⟨b1, b2, b3⟩ := h2
  refine ⟨by omega, ?_, ?_⟩
  · intro e he
    rcases b2 e he with h | h
    · rcases a2 e h with h | h
      · exact Or.inl h
      · exact Or.inr ⟨h.1, by omega⟩
    · exact Or.inr ⟨by omega, h.2⟩
  · intro m hm
    exact Nat.le_trans (b3 m (by omega)) (a3 m hm)

theorem extends_removeFirst (p : Elem → Bool) (s s2 : Page)
    (hd : s2.st.doc = s.st.doc.removeFirst p) (hn : s2.st.nextNid = s.st.nextNid) :
    Page.Extends s s2 := by
  refine ⟨by omega, ?_, ?_⟩
  · intro e he
    rw [hd] at he
    exact Or.inl (Forest.mem_elems_removeFirst p _ e he)
  · intro m _
    rw [hd]
    exact Forest.count_removeFirst_le _ _ _

theorem extends_append (c : Forest) (s s2 : Page)
    (hd : s2.st.doc = s.st.doc.append c) (hn : s.st.nextNid ≤ s2.st.nextNid)
    (hc : ∀ e ∈ c.elems, s.st.nextNid ≤ e.nid ∧ e.nid < s2.st.nextNid) :
    Page.Extends s s2 := by
  refine ⟨hn, ?_, ?_⟩
  · intro e he
    rw [hd, Forest.elems_append, List.mem_append] at he
    rcases he with he | he
    · exact Or.inl he
    · exact Or.inr (hc e he)
  · intro m hm
    rw [hd, Forest.count_append,
      count_isNode_of_fresh c m s.st.nextNid hm (fun e he => (hc e he).1)]
    omega

theorem extends_appendChildTo (p : Elem → Bool) (c : Forest) (s s2 : Page)
    (hd : s2.st.doc = Forest.appendChildTo p c s.st.doc) (hn : s.st.nextNid ≤ s2.st.nextNid)
    (hc : ∀ e ∈ c.elems, s.st.nextNid ≤ e.nid ∧ e.nid < s2.st.nextNid) :
    Page.Extends s s2 := by
  refine ⟨hn, ?_, ?_⟩
  · intro e he
    rw [hd] at he
    rcases Forest.mem_elems_appendChildTo p c _ e he with he | he
    · exact Or.inl he
    · exact Or.inr (hc e he)
  · intro m hm
    rw [hd]
    have := Forest.count_appendChildTo_le p (isNode m) c s.st.doc
    rw [count_isNode_of_fresh c m s.st.nextNid hm (fun e he => (hc e he).1)] at this
    omega

theorem extends_showLoadingState (s : Page) : Page.Extends s (showLoadingState s) := by
  apply extends_append (.node (overlayElem s.st.nextNid) .nil .nil) s _ rfl
  · simp [showLoadingState]
  · intro e he
    simp [Forest.elems] at he
    subst he
    simp [overlayElem, createElement, showLoadingState]

theorem extends_hideLoadingState (s : Page) : Page.Extends s (hideLoadingState s) := by
  simp only [hideLoadingState]
  split
  · exact extends_removeFirst _ s _ rfl rfl
  · exact extends_same s s rfl rfl

theorem extends_performSearch (q : String) (s : Page) :
    Page.Extends s (performSearch q s) := by
  simp only [performSearch]
  split
  · exact extends_same s s rfl rfl
  · exact extends_trans s (showLoadingState s) _ (extends_showLoadingState s)
      (extends_same _ _ rfl rfl)

theorem extends_createToastContainer (s : Page) :
    Page.Extends s (createToastContainer s) := by
  apply extends_append (.node (containerElem s.st.nextNid) .nil .nil) s _ rfl
  · simp [createToastContainer]
  · intro e he
    simp [Forest.elems] at he
    subst he
    simp [containerElem, createElement, createToastContainer]

theorem extends_ensureToastContainer (s : Page) :
    Page.Extends s (ensureToastContainer s) := by
  simp only [ensureToastContainer]
  split
  · exact extends_same s s rfl rfl
  · exact extends_createToastContainer s

theorem toastTree_nids (message : String) (type : Option String) (content : Forest) (s : Page) :
    ∀ e ∈ (toastTree message type content s).elems,
      (ensureToastContainer s).st.nextNid ≤ e.nid ∧
      e.nid < (toastKids content ((ensureToastContainer s).st.nextNid + 1)).2 := by
  intro e he
  have hle := Forest.relabel_le content ((ensureToastContainer s).st.nextNid + 1)
  simp only [toastTree, Forest.elems, List.append_nil, List.mem_cons] at he
  rcases he with rfl | he
  · simp only [toastOf, toastElem, createElement, toastKids]
    omega
  · have := Forest.relabel_nids content ((ensureToastContainer s).st.nextNid + 1) e he
    simp only [toastKids]
    omega

theorem showToast_doc (m : String) (t : Option String) (d : Option Nat) (c : Forest) (s : Page) :
    (showToast m t d c s).st.doc
      = Forest.appendChildTo (hasId "toast-container") (toastTree m t c s)
          (ensureToastContainer s).st.doc ∧
    (showToast m t d c s).st.nextNid
      = (toastKids c ((ensureToastContainer s).st.nextNid + 1)).2 := by
  simp [showToast, Loop.setTimeout, toastTree, toastOf]

theorem extends_showToast (m : String) (t : Option String) (d : Option Nat) (c : Forest)
    (s : Page) : Page.Extends s (showToast m t d c s) := by
  apply extends_trans s (ensureToastContainer s) _ (extends_ensureToastContainer s)
  obtain ⟨hd, hn⟩ := showToast_doc m t d c s
  have hle := Forest.relabel_le c ((ensureToastContainer s).st.nextNid + 1)
  apply extends_appendChildTo _ (toastTree m t c s) _ _ hd
  · rw [hn]
    simp only [toastKids]
    omega
  · rw [hn]
    exact toastTree_nids m t c s

theorem extends_pageExec (cb : PageCb) (s : Page) : Page.Extends s (pageExec cb s) := by
  cases cb with
  | search =>
    exact extends_trans s _ _ (extends_same s
      { s with st := { s.st with searched := s.st.searched ++ [(s.now, s.st.searchValue)] } }
      rfl rfl) (extends_performSearch _ _)
  | hide => exact extends_hideLoadingState s
  | removeToast n => exact extends_removeFirst _ s _ rfl rfl

theorem extends_step (op : PageOp) (s : Page) : Page.Extends s (Page.step op s) := by
  cases op with
  | tick dt => exact extends_same _ _ rfl rfl
  | assign v => exact extends_same _ _ rfl rfl
  | fire id =>
    simp only [Page.step]
    split
    · split
      · rename_i tm _ _
        exact extends_trans s
          { s with now := max s.now tm.due,
                   pending := s.pending.filter (fun x => x.id != tm.id) } _
          (extends_same _ _ rfl rfl) (extends_pageExec _ _)
      · exact extends_same _ _ rfl rfl
    · exact extends_same _ _ rfl rfl
  | input v =>
    apply extends_same
    · cases hto : s.st.searchTimeout <;>
        simp [Page.step, onSearchInput, Loop.clearTimeout, Loop.setTimeout, hto]
    · cases hto : s.st.searchTimeout <;>
        simp [Page.step, onSearchInput, Loop.clearTimeout, Loop.setTimeout, hto]
  | performSearch q => exact extends_performSearch q s
  | showLoadingState => exact extends_showLoadingState s
  | hideLoadingState => exact extends_hideLoadingState s
  | showToast m t d c => exact extends_showToast m t d c s

theorem freshNids_of_extends (s s2 : Page) (h : s.FreshNids) (he : Page.Extends s s2) :
    s2.FreshNids := by
  intro e hmem
  rcases he.2.1 e hmem with h1 | h1
  · have := h e h1
    have := he.1
    omega
  · exact h1.2

theorem keepsToast_of_extends (n : Nat) (toast : Elem) (s s2 : Page)
    (h : KeepsToast n toast s) (he : Page.Extends s s2) : KeepsToast n toast s2 := by
  obtain ⟨h1, h2, h3, h4⟩ := h
  refine ⟨freshNids_of_extends s s2 h1 he, ?_, ?_, ?_⟩
  · have := he.1
    omega
  · exact Nat.le_trans (he.2.2 n h2) h3
  · intro e hmem hn
    rcases he.2.1 e hmem with h5 | h5
    · exact h4 e h5 hn
    · omega

theorem keepsToast_run (n : Nat) (toast : Elem) :
    ∀ (ops : List PageOp) (s : Page), KeepsToast n toast s → KeepsToast n toast (Page.run ops s)
  | [], _, h => h
  | op :: ops, s, h =>
    keepsToast_run n toast ops _ (keepsToast_of_extends n toast s _ h (extends_step op s))

theorem hasId_containerElem (n : Nat) : hasId "toast-container" (containerElem n) = true := by
  simp [hasId, containerElem, createElement]

theorem hasId_toastElem (n : Nat) (m t : String) :
    hasId "toast-container" (toastElem n m t) = false := by
  simp [hasId, toastElem, createElement]

theorem isNode_toastElem (n : Nat) (m t : String) : isNode n (toastElem n m t) = true := by
  simp [isNode, toastElem, createElement]

theorem any_isNode_of_fresh (f : Forest) (n : Nat) (h : ∀ e ∈ f.elems, e.nid < n) :
    f.any (isNode n) = false := by
  cases ha : f.any (isNode n) with
  | false => rfl
  | true =>
    obtain ⟨e, he, hn⟩ := (Forest.any_iff_elems _ _).mp ha
    have := h e he
    simp [isNode] at hn
    omega

theorem ensureToastContainer_spec (s : Page) :
    (s.st.doc.count (hasId "toast-container") = 0 →
      ensureToastContainer s = createToastContainer s) ∧
    (0 < s.st.doc.count (hasId "toast-container") → ensureToastContainer s = s) ∧
    (ensureToastContainer s).st.doc.any (hasId "toast-container") = true ∧
    (ensureToastContainer s).st.doc.count (hasId "toast-container")
      = max 1 (s.st.doc.count (hasId "toast-container")) ∧
    (s.FreshNids → (ensureToastContainer s).FreshNids) := by
  cases hf : s.st.doc.first (hasId "toast-container") with
  | none =>
    have h0 := (Forest.first_eq_none_iff _ _).mp hf
    have hs : ensureToastContainer s = createToastContainer s := by
      simp [ensureToastContainer, hf]
    refine ⟨fun _ => hs, fun h => by omega, ?_, ?_, ?_⟩
    · rw [hs]
      simp [createToastContainer, Forest.any_append, Forest.any, hasId_containerElem]
    · rw [hs]
      simp [createToastContainer, Forest.count_append, Forest.count, hasId_containerElem, h0]
    · intro hfr
      rw [hs]
      intro e he
      simp only [createToastContainer, Forest.elems_append, Forest.elems, List.mem_append] at he ⊢
      rcases he with he | he
      · have := hfr e he
        omega
      · simp at he
        subst he
        simp [containerElem, createElement]
  | some x =>
    have hpos : 0 < s.st.doc.count (hasId "toast-container") := by
      rcases Nat.eq_zero_or_pos (s.st.doc.count (hasId "toast-container")) with h | h
      · have := (Forest.first_eq_none_iff _ _).mpr h
        rw [hf] at this
        cases this
      · exact h
    have hs : ensureToastContainer s = s := by
      simp [ensureToastContainer, hf]
    refine ⟨fun h => by omega, fun _ => hs, ?_, ?_, ?_⟩
    · rw [hs]
      exact (Forest.any_iff_count _ _).mpr hpos
    · rw [hs, Nat.max_eq_right hpos]
    · intro hfr
      rw [hs]
      exact hfr

theorem toastTree_count_id (message : String) (type : Option String) (content : Forest)
    (s : Page) :
    (toastTree message type content s).count (hasId "toast-container")
      = content.count (hasId "toast-container") := by
  have h := Forest.count_relabel (hasId "toast-container") (fun _ _ => rfl) content
    ((ensureToastContainer s).st.nextNid + 1)
  simp only [toastTree, Forest.count, toastOf, hasId_toastElem, toastKids, h]
  simp

theorem toastOf_nid (message : String) (type : Option String) (s : Page) :
    (toastOf message type s).nid = (ensureToastContainer s).st.nextNid := by
  simp [toastOf, toastElem, createElement]

theorem toastTree_count_node (message : String) (type : Option String) (content : Forest)
    (s : Page) :
    (toastTree message type content s).count (isNode (ensureToastContainer s).st.nextNid)
      = 1 := by
  have hk : (toastKids content ((ensureToastContainer s).st.nextNid + 1)).1.count
      (isNode (ensureToastContainer s).st.nextNid) = 0 :=
    count_isNode_of_fresh _ _ ((ensureToastContainer s).st.nextNid + 1) (by omega)
      (fun e he => (Forest.relabel_nids content _ e he).1)
  simp only [toastTree, Forest.count, hk]
  simp [toastOf, toastElem, createElement, isNode]

/-- Right after `showToast`, the toast is in the document once, under a new
identity. -/
theorem keepsToast_showToast (message : String) (type : Option String) (duration : Option Nat)
    (content : Forest) (s : Page) (hfresh : s.FreshNids) :
    KeepsToast (ensureToastContainer s).st.nextNid (toastOf message type s)
      (showToast message type duration content s) := by
  obtain ⟨_, _, hany, _, hfr⟩ := ensureToastContainer_spec s
  have hfr1 := hfr hfresh
  obtain ⟨hd, hn⟩ := showToast_doc message type duration content s
  have hle := Forest.relabel_le content ((ensureToastContainer s).st.nextNid + 1)
  have h0 : (ensureToastContainer s).st.doc.count (isNode (ensureToastContainer s).st.nextNid)
      = 0 := by
    apply Forest.count_eq_zero_of_forall
    intro e he
    have := hfr1 e he
    simp [isNode]
    omega
  refine ⟨freshNids_of_extends s _ hfresh (extends_showToast _ _ _ _ s), ?_, ?_, ?_⟩
  · rw [hn]
    simp only [toastKids]
    omega
  · rw [hd, Forest.count_appendChildTo _ _ _ _ hany, h0, toastTree_count_node]
  · intro e he hnid
    rw [hd] at he
    rcases Forest.mem_elems_appendChildTo _ _ _ e he with he | he
    · have := hfr1 e he
      omega
    · simp only [toastTree, Forest.elems, List.append_nil, List.mem_cons] at he
      rcases he with rfl | he
      · rfl
      · have := (Forest.relabel_nids content _ e he).1
        omega

/-- C5, as the code has it.  The page's elements were all created before
now, `duration` (or the default) is below 2^31, the largest delay the host's
`setTimeout` honours, and `content` is what the host parses from the toast's
markup, the caller's `message` included.  Then `showToast(message, type,
duration)` does this.  The toast container is the first element with id
`toast-container`; `createToastContainer` runs, and appends one to `body`,
exactly when the document has none, and the number of elements with that id
afterwards is one, or what it was when there were some, plus those the parsed
markup holds.  One new element, with the class tokens of
`toast show bg-<type> text-white` and the parsed markup as its children,
becomes the last child of the container, after the children the container
had, which stay as they are; taking that element out gives back the document
with its container, so nothing else changed.  One timer is registered, due
`duration` ms from now.  After whatever happens to the page next (further
toasts included), the element of the toast's identity is in the document at
most once and is that toast, and the firing of the timer removes exactly the
element of that identity.  Omitted `type` and `duration` act as `'info'` and
`5000`. -/
theorem showToast_appends_one_and_removes_it (message : String) (type : Option String)
    (duration : Option Nat) (content : Forest) (s : Page) (hfresh : s.FreshNids)
    (hdur : duration.getD 5000 < 2147483648) (ops : List PageOp) :
    (s.st.doc.count (hasId "toast-container") = 0 →
      (ensureToastContainer s).st.doc
        = s.st.doc.append (.node (containerElem s.st.nextNid) .nil .nil)) ∧
    (0 < s.st.doc.count (hasId "toast-container") → ensureToastContainer s = s) ∧
    (showToast message type duration content s).st.doc.count (hasId "toast-container")
      = max 1 (s.st.doc.count (hasId "toast-container"))
        + content.count (hasId "toast-container") ∧
    (∃ kids, (ensureToastContainer s).st.doc.kidsOf (hasId "toast-container") = some kids ∧
      (showToast message type duration content s).st.doc.kidsOf (hasId "toast-container")
        = some (kids.append (toastTree message type content s))) ∧
    (toastOf message type s).classes
      = classTokens ("toast show bg-" ++ type.getD "info" ++ " text-white") ∧
    (showToast message type duration content s).st.doc.removeFirst
        (isNode (toastOf message type s).nid) = (ensureToastContainer s).st.doc ∧
    (showToast message type duration content s).pending
      = s.pending ++ [toastTimer message type duration s] ∧
    ((Page.run ops (showToast message type duration content s)).st.doc.count
        (isNode (toastOf message type s).nid) ≤ 1 ∧
      (∀ x, (Page.run ops (showToast message type duration content s)).st.doc.first
          (isNode (toastOf message type s).nid) = some x → x = toastOf message type s) ∧
      (Loop.fire pageExec (toastTimer message type duration s)
          (Page.run ops (showToast message type duration content s))).st.doc
        = (Page.run ops (showToast message type duration content s)).st.doc.removeFirst
            (isNode (toastOf message type s).nid)) ∧
    showToast message none none content s
      = showToast message (some "info") (some 5000) content s := by
  obtain ⟨hnone, hsome, hany, hcount, hfr⟩ := ensureToastContainer_spec s
  have hfr1 := hfr hfresh
  have hq : (ensureToastContainer s).st.doc.any (isNode (ensureToastContainer s).st.nextNid)
      = false := any_isNode_of_fresh _ _ hfr1
  obtain ⟨hdoc, _⟩ := showToast_doc message type duration content s
  have hnid := toastOf_nid message type s
  have hkeep := keepsToast_run _ _ ops _
    (keepsToast_showToast message type duration content s hfresh)
  refine ⟨?_, hsome, ?_, ?_, rfl, ?_, ?_, ⟨?_, ?_, ?_⟩, rfl⟩
  · intro h0
    rw [hnone h0]
    rfl
  · rw [hdoc, Forest.count_appendChildTo _ _ _ _ hany, hcount, toastTree_count_id]
  · have hs := Forest.kidsOf_isSome (hasId "toast-container") (ensureToastContainer s).st.doc
    rw [hany] at hs
    obtain ⟨kids, hk⟩ := Option.isSome_iff_exists.mp hs
    refine ⟨kids, hk, ?_⟩
    rw [hdoc, Forest.kidsOf_appendChildTo, hk]
    rfl
  · rw [hdoc, hnid]
    exact Forest.removeFirst_appendChildTo _ _ _ _ (isNode_toastElem _ _ _) _ hq hany
  · simp [showToast, Loop.setTimeout, toastTimer, toastOf, ensureToastContainer_pending,
      ensureToastContainer_nextId, ensureToastContainer_now, hostDelay_of_lt hdur]
  · rw [hnid]
    exact hkeep.2.2.1
  · intro x hx
    obtain ⟨hmem, hp⟩ := Forest.first_mem _ _ x hx
    rw [hnid] at hp
    exact hkeep.2.2.2 x hmem (by simpa [isNode] using hp)
  · simp only [Loop.fire, toastTimer, pageExec]

/-- C5 as amended, at the spec's example with a second toast on top: on a
page just loaded with an empty document, `showToast("x", "danger", 1000)`
with nothing parsed from its markup creates the container and puts one toast
in it; a second toast follows at 500 ms; the first toast's timer, due at
1000 ms, removes the first toast and leaves the second. -/
theorem showToast_appends_one_and_removes_it_witness :
    (showToast "x" (some "danger") (some 1000) .nil (Page.init .nil 1 "")).st.doc
        = .node (containerElem 1) (.node (toastElem 2 "x" "danger") .nil .nil) .nil ∧
    (showToast "x" (some "danger") (some 1000) .nil (Page.init .nil 1 "")).pending
        = [⟨1, 1000, PageCb.removeToast 2⟩] ∧
    (Loop.fire pageExec ⟨1, 1000, PageCb.removeToast 2⟩
        (Page.run [.tick 500, .showToast "y" none none .nil, .tick 500]
          (showToast "x" (some "danger") (some 1000) .nil (Page.init .nil 1 "")))).st.doc
        = .node (containerElem 1) (.node (toastElem 3 "y" "info") .nil .nil) .nil := by
  have h := showToast_appends_one_and_removes_it "x" (some "danger") (some 1000) .nil
    (Page.init .nil 1 "") (by intro e he; simp [Page.init, Forest.elems] at he) (by decide)
    [.tick 500, .showToast "y" none none .nil, .tick 500]
  refine ⟨by decide, ?_, ?_⟩
  · have h7 := h.2.2.2.2.2.2.1
    rw [h7]
    decide
  · have h8 := h.2.2.2.2.2.2.2.1.2.2
    have ht : toastTimer "x" (some "danger") (some 1000) (Page.init .nil 1 "")
        = ⟨1, 1000, PageCb.removeToast 2⟩ := by decide
    rw [ht] at h8
    rw [h8]
    decide

/-- C5 as stated fails twice, on a page just loaded with an empty document.
With `duration = 2^31` the host takes the delay as 0: the toast's timer is
due at once, not 2^31 ms later, and at time 0 the toast is already removed.
And with the message `<div id="toast-container"></div>`, whose markup parses
into a `toast-body` that holds that `div` and the close button, the document
afterwards has two elements with id `toast-container`. -/
theorem showToast_counterexample :
    (showToast "x" none (some 2147483648) .nil (Page.init .nil 1 "")).pending
        = [⟨1, 0, PageCb.removeToast 2⟩] ∧
    (pageAdvance 0 (showToast "x" none (some 2147483648) .nil (Page.init .nil 1 ""))).st.doc
        = .node (containerElem 1) .nil .nil ∧
    (showToast "<div id=\"toast-container\"></div>" none none
        (.node { createElement 0 "div" with classes := ["toast-body"] }
          (.node { createElement 0 "div" with id := "toast-container" } .nil
            (.node { createElement 0 "button" with
                classes := ["btn-close", "btn-close-white", "ms-2"] } .nil .nil))
          .nil)
        (Page.init .nil 1 "")).st.doc.count (hasId "toast-container") = 2 := by
  decide

example : onAnchorClick "#" .nil ⟨[], [], false⟩ = some ⟨[.preventDefault], [], true⟩ := by decide
example : onAnchorClick "#missing" .nil ⟨[], [], false⟩ = some ⟨[.preventDefault], [], false⟩ := by
  decide
example : onAnchorClick "#1" .nil ⟨[], [], false⟩ = some ⟨[.preventDefault], [], true⟩ := by decide
example : onAnchorClick "#a b" .nil ⟨[], [], false⟩ = none := by decide

/-! ## Property writes on one element -/

theorem Forest.first_isSome (p : Elem → Bool) (f : Forest) (h : f.any p = true) :
    ∃ x, f.first p = some x := by
  cases hf : f.first p with
  | some x => exact ⟨x, rfl⟩
  | none =>
    have h0 := (Forest.first_eq_none_iff p f).mp hf
    have := (Forest.any_iff_count p f).mp h
    omega

theorem Forest.first_eq_none_of_any (p : Elem → Bool) (f : Forest) (h : f.any p = false) :
    f.first p = none :=
  (Forest.first_eq_none_iff p f).mpr ((Forest.any_eq_false_iff p f).mp h)

/-- Reading the element that was written: it is the written value. -/
theorem Forest.first_modifyFirst_same (p : Elem → Bool) (f : Elem → Elem)
    (hp : ∀ e, p (f e) = p e) :
    ∀ d : Forest, (d.modifyFirst p f).first p = (d.first p).map f
  | .nil => by simp [Forest.modifyFirst, Forest.first]
  | .node e k n => by
    have hk := Forest.first_modifyFirst_same p f hp k
    have hn := Forest.first_modifyFirst_same p f hp n
    by_cases he : p e = true
    · simp [Forest.modifyFirst, Forest.first, he, hp]
    · by_cases hka : k.any p = true
      · obtain ⟨x, hx⟩ := Forest.first_isSome p k hka
        simp [Forest.modifyFirst, Forest.first, he, hka, hk, hx]
      · have hnone := Forest.first_eq_none_of_any p k (by simpa using hka)
        simp [Forest.modifyFirst, Forest.first, he, hka, hnone, hn]

/-- Reading another element than the one written: it is unchanged. -/
theorem Forest.first_modifyFirst_other (p q : Elem → Bool) (f : Elem → Elem)
    (hq : ∀ e, q e = true → p e = false ∧ p (f e) = false) :
    ∀ d : Forest, (d.modifyFirst q f).first p = d.first p
  | .nil => by simp [Forest.modifyFirst]
  | .node e k n => by
    have hk := Forest.first_modifyFirst_other p q f hq k
    have hn := Forest.first_modifyFirst_other p q f hq n
    by_cases he : q e = true
    · obtain ⟨h1, h2⟩ := hq e he
      simp [Forest.modifyFirst, Forest.first, he, h1, h2]
    · by_cases hka : k.any q = true
      · simp [Forest.modifyFirst, Forest.first, he, hka, hk]
      · simp [Forest.modifyFirst, Forest.first, he, hka, hn]

/-- A write that `g` does not see leaves the `g`-image of the tree alone. -/
theorem Forest.map_modifyFirst (p : Elem → Bool) (f g : Elem → Elem)
    (hg : ∀ e, g (f e) = g e) :
    ∀ d : Forest, (d.modifyFirst p f).map g = d.map g
  | .nil => by simp [Forest.modifyFirst]
  | .node e k n => by
    have hk := Forest.map_modifyFirst p f g hg k
    have hn := Forest.map_modifyFirst p f g hg n
    simp only [Forest.modifyFirst]
    split
    · simp [Forest.map, hg]
    · split
      · simp [Forest.map, hk]
      · simp [Forest.map, hn]

theorem isNode_ne (i j : Nat) (f : Elem → Elem) (hf : ∀ e, (f e).nid = e.nid) (hij : i ≠ j) :
    ∀ e, isNode j e = true → isNode i e = false ∧ isNode i (f e) = false := by
  intro e he
  simp only [isNode, beq_iff_eq] at he
  simp [isNode, hf, he, Ne.symm hij]

/-! ## Form validation -/

theorem classListAdd_nid (c : String) (e : Elem) : (classListAdd c e).nid = e.nid := by
  simp only [classListAdd]; split <;> rfl

theorem classListAdd_mem (c : String) (e : Elem) : c ∈ (classListAdd c e).classes := by
  simp only [classListAdd]
  split
  · rename_i h; simpa using h
  · simp

theorem classListAdd_classes (c : String) (e : Elem) (x : String) :
    x ∈ (classListAdd c e).classes ↔ x ∈ e.classes ∨ x = c := by
  simp only [classListAdd]
  split
  · rename_i h
    have hc : c ∈ e.classes := by simpa using h
    constructor
    · exact Or.inl
    · rintro (h | rfl)
      · exact h
      · exact hc
  · simp

theorem classListAdd_rest (c : String) (e : Elem) :
    { classListAdd c e with classes := [] } = { e with classes := [] } := by
  simp only [classListAdd]; split <;> rfl

/-- C8. The submit listener of a `needs-validation` form calls
`preventDefault` and then `stopPropagation` on the event when
`checkValidity()` returned false, and makes no call on the event when it
returned true.  In both cases the form then has the class `was-validated`:
its class list is the former one with that token added, and nothing else of
the form changed.  Every other element reads as before, and the document
differs from the former one in class lists at most. -/
theorem submit_listener_contract (form : Nat) (valid : Bool) (s : SubmitSt) :
    (valid = false →
      (onSubmit form valid s).event = s.event ++ [.preventDefault, .stopPropagation]) ∧
    (valid = true → (onSubmit form valid s).event = s.event) ∧
    (∀ f, s.doc.first (isNode form) = some f →
      ∃ f2, (onSubmit form valid s).doc.first (isNode form) = some f2 ∧
        "was-validated" ∈ f2.classes ∧
        (∀ x, x ∈ f2.classes ↔ x ∈ f.classes ∨ x = "was-validated") ∧
        { f2 with classes := [] } = { f with classes := [] }) ∧
    (∀ j, j ≠ form → (onSubmit form valid s).doc.first (isNode j) = s.doc.first (isNode j)) ∧
    (onSubmit form valid s).doc.map (fun e => { e with classes := [] })
      = s.doc.map (fun e => { e with classes := [] }) := by
  refine ⟨?_, ?_, ?_, ?_, ?_⟩
  · intro h; simp [onSubmit, h]
  · intro h; simp [onSubmit, h]
  · intro f hf
    refine ⟨classListAdd "was-validated" f, ?_, classListAdd_mem _ _,
      classListAdd_classes _ _, classListAdd_rest _ _⟩
    simp only [onSubmit]
    rw [Forest.first_modifyFirst_same _ _ (fun e => by simp [isNode, classListAdd_nid]), hf]
    rfl
  · intro j hj
    simp only [onSubmit]
    exact Forest.first_modifyFirst_other _ _ _
      (isNode_ne j form _ (classListAdd_nid _) hj) _
  · simp only [onSubmit]
    exact Forest.map_modifyFirst _ _ _ (fun e => classListAdd_rest _ e) _

/-- C8 on a document that holds one form and one other element: an invalid
submit makes the two calls on the event, the form gets `was-validated`, the
other element is untouched. -/
theorem submit_listener_contract_witness :
    (onSubmit 1 false
      ⟨.node { createElement 1 "form" with classes := ["needs-validation"] } .nil
          (.node (createElement 2 "div") .nil .nil), []⟩)
      = ⟨.node { createElement 1 "form" with classes := ["needs-validation", "was-validated"] }
          .nil (.node (createElement 2 "div") .nil .nil),
         [.preventDefault, .stopPropagation]⟩ := by
  have h := (submit_listener_contract 1 false
    ⟨.node { createElement 1 "form" with classes := ["needs-validation"] } .nil
        (.node (createElement 2 "div") .nil .nil), []⟩).1 rfl
  have hd : (onSubmit 1 false
      ⟨.node { createElement 1 "form" with classes := ["needs-validation"] } .nil
          (.node (createElement 2 "div") .nil .nil), []⟩).doc
      = .node { createElement 1 "form" with classes := ["needs-validation", "was-validated"] }
          .nil (.node (createElement 2 "div") .nil .nil) := by decide
  cases hs : onSubmit 1 false
      ⟨.node { createElement 1 "form" with classes := ["needs-validation"] } .nil
          (.node (createElement 2 "div") .nil .nil), []⟩ with
  | mk d ev =>
    rw [hs] at h hd
    simp only at h hd
    rw [h, hd]
    rfl

/-! ## Lazy loading -/

theorem loadImage_nid (e : Elem) : (loadImage e).nid = e.nid := rfl

theorem loadImage_idem (e : Elem) : loadImage (loadImage e) = loadImage e := by
  simp [loadImage, classListRemove, List.filter_filter]

theorem lazyEntry_first_other (en : Entry) (s : LazySt) (i : Nat)
    (h : en.target = i → en.isIntersecting = false) :
    (lazyEntry en s).doc.first (isNode i) = s.doc.first (isNode i) ∧
    (i ∈ (lazyEntry en s).observed ↔ i ∈ s.observed) := by
  by_cases hi : en.isIntersecting = true
  · have hne : i ≠ en.target := fun he => by
      have := h he.symm
      rw [hi] at this
      cases this
    simp only [lazyEntry, hi, if_true]
    refine ⟨Forest.first_modifyFirst_other _ _ _ (isNode_ne i en.target _ loadImage_nid hne) _, ?_⟩
    simp [List.mem_filter, hne]
  · simp [lazyEntry, hi]

theorem lazyEntry_first_hit (en : Entry) (s : LazySt) (hi : en.isIntersecting = true) :
    (lazyEntry en s).doc.first (isNode en.target)
      = (s.doc.first (isNode en.target)).map loadImage ∧
    en.target ∉ (lazyEntry en s).observed := by
  simp only [lazyEntry, hi, if_true]
  refine ⟨Forest.first_modifyFirst_same _ _ (fun e => by simp [isNode, loadImage_nid]) _, ?_⟩
  simp [List.mem_filter]

theorem lazyCallback_cons (en : Entry) (entries : List Entry) (s : LazySt) :
    lazyCallback (en :: entries) s = lazyCallback entries (lazyEntry en s) := rfl

theorem lazyCallback_untouched : ∀ (entries : List Entry) (s : LazySt) (i : Nat),
    (∀ en ∈ entries, en.target = i → en.isIntersecting = false) →
    (lazyCallback entries s).doc.first (isNode i) = s.doc.first (isNode i) ∧
    (i ∈ (lazyCallback entries s).observed ↔ i ∈ s.observed)
  | [], s, i, _ => ⟨rfl, Iff.rfl⟩
  | en :: entries, s, i, h => by
    have h1 := lazyEntry_first_other en s i (h en (List.mem_cons_self _ _))
    have h2 := lazyCallback_untouched entries (lazyEntry en s) i
      (fun e he => h e (List.mem_cons_of_mem _ he))
    rw [lazyCallback_cons]
    exact ⟨h2.1.trans h1.1, h2.2.trans h1.2⟩

/-- Once an image is loaded and no longer observed, the rest of a batch
keeps it so. -/
theorem lazyCallback_loaded : ∀ (entries : List Entry) (s : LazySt) (i : Nat) (o : Option Elem),
    s.doc.first (isNode i) = o.map loadImage → i ∉ s.observed →
    (lazyCallback entries s).doc.first (isNode i) = o.map loadImage ∧
    i ∉ (lazyCallback entries s).observed
  | [], _, _, _, h1, h2 => ⟨h1, h2⟩
  | en :: entries, s, i, o, h1, h2 => by
    rw [lazyCallback_cons]
    apply lazyCallback_loaded entries (lazyEntry en s) i o
    · by_cases hit : en.isIntersecting = true ∧ en.target = i
      · obtain ⟨hi, ht⟩ := hit
        subst ht
        rw [(lazyEntry_first_hit en s hi).1, h1]
        cases o <;> simp [loadImage_idem]
      · rw [(lazyEntry_first_other en s i (fun ht => by
          cases hb : en.isIntersecting with
          | false => rfl
          | true => exact absurd ⟨hb, ht⟩ hit)).1]
        exact h1
    · by_cases hi : en.isIntersecting = true
      · simp only [lazyEntry, hi, if_true, List.mem_filter]
        exact fun hmem => h2 hmem.1
      · simpa [lazyEntry, hi] using h2

theorem lazyCallback_hit : ∀ (entries : List Entry) (s : LazySt) (i : Nat),
    (∃ en ∈ entries, en.target = i ∧ en.isIntersecting = true) →
    (lazyCallback entries s).doc.first (isNode i) = (s.doc.first (isNode i)).map loadImage ∧
    i ∉ (lazyCallback entries s).observed
  | [], _, _, h => by
    obtain ⟨en, hen, _⟩ := h
    cases hen
  | en :: entries, s, i, h => by
    rw [lazyCallback_cons]
    by_cases hit : en.isIntersecting = true ∧ en.target = i
    · obtain ⟨hi, ht⟩ := hit
      subst ht
      have h1 := lazyEntry_first_hit en s hi
      exact lazyCallback_loaded entries (lazyEntry en s) en.target _ h1.1 h1.2
    · have hother : en.target = i → en.isIntersecting = false := fun ht => by
        cases hb : en.isIntersecting with
        | false => rfl
        | true => exact absurd ⟨hb, ht⟩ hit
      have h1 := lazyEntry_first_other en s i hother
      have hex : ∃ e ∈ entries, e.target = i ∧ e.isIntersecting = true := by
        obtain ⟨e, he, ht, hi⟩ := h
        rcases List.mem_cons.mp he with rfl | he
        · exact absurd ⟨hi, ht⟩ hit
        · exact ⟨e, he, ht, hi⟩
      have h2 := lazyCallback_hit entries (lazyEntry en s) i hex
      rw [h1.1] at h2
      exact h2

theorem lazyBatches_untouched : ∀ (batches : List (List Entry)) (s : LazySt) (i : Nat),
    (∀ b ∈ batches, ∀ en ∈ b, en.target = i → en.isIntersecting = false) →
    (batches.foldl (fun s b => lazyCallback b s) s).doc.first (isNode i)
      = s.doc.first (isNode i)
  | [], _, _, _ => rfl
  | b :: batches, s, i, h => by
    have h1 := lazyCallback_untouched b s i (h b (List.mem_cons_self _ _))
    have h2 := lazyBatches_untouched batches (lazyCallback b s) i
      (fun b2 hb2 => h b2 (List.mem_cons_of_mem _ hb2))
    simp only [List.foldl_cons]
    exact h2.trans h1.1

/-- C6. For the observer callback of `setupLazyLoading`, a batch of entries
and an image `i`: an entry that is not intersecting changes nothing at all;
when no entry of the batch reports `i` as intersecting, `i` reads as before
(same `src`, same class list, everything) and is observed exactly if it was;
when some entry of the batch reports `i` as intersecting, `i` reads as the
former element with `src` set to its `data-src` value and without the class
`lazy`, everything else as before, and `i` is no longer observed.  Over any
series of batches, an image that reads differently afterwards was reported
intersecting by some entry. -/
theorem lazy_loader_contract (entries : List Entry) (s : LazySt) (i : Nat) :
    (∀ en : Entry, en.isIntersecting = false → lazyEntry en s = s) ∧
    ((∀ en ∈ entries, en.target = i → en.isIntersecting = false) →
      (lazyCallback entries s).doc.first (isNode i) = s.doc.first (isNode i) ∧
      (i ∈ (lazyCallback entries s).observed ↔ i ∈ s.observed)) ∧
    ((∃ en ∈ entries, en.target = i ∧ en.isIntersecting = true) →
      (lazyCallback entries s).doc.first (isNode i)
        = (s.doc.first (isNode i)).map loadImage ∧
      i ∉ (lazyCallback entries s).observed) ∧
    (∀ img : Elem,
      (∀ v, img.dataSrc = some v → (loadImage img).src = some v) ∧
      "lazy" ∉ (loadImage img).classes ∧
      (∀ c, c ≠ "lazy" → (c ∈ (loadImage img).classes ↔ c ∈ img.classes)) ∧
      { loadImage img with src := none, classes := [] } = { img with src := none, classes := [] }) ∧
    (∀ batches : List (List Entry),
      (batches.foldl (fun s b => lazyCallback b s) s).doc.first (isNode i)
        ≠ s.doc.first (isNode i) →
      ∃ b ∈ batches, ∃ en ∈ b, en.target = i ∧ en.isIntersecting = true) := by
  refine ⟨?_, lazyCallback_untouched entries s i, lazyCallback_hit entries s i, ?_, ?_⟩
  · intro en h
    simp [lazyEntry, h]
  · intro img
    refine ⟨?_, ?_, ?_, rfl⟩
    · intro v hv
      simp [loadImage, classListRemove, hv]
    · simp [loadImage, classListRemove, List.mem_filter]
    · intro c hc
      simp [loadImage, classListRemove, List.mem_filter, hc]
  · intro batches hne
    by_contra hno
    apply hne
    apply lazyBatches_untouched
    intro b hb en hen ht
    cases hi : en.isIntersecting with
    | false => rfl
    | true => exact absurd ⟨b, hb, en, hen, ht, hi⟩ hno

/-- C6 on a document with two lazy images: the batch reports image 1 as
intersecting and image 2 as not; image 1 is loaded and unobserved, image 2 is
as before and still observed. -/
theorem lazy_loader_contract_witness :
    lazyCallback [⟨1, true⟩, ⟨2, false⟩]
      (setupLazyLoading
        (.node { createElement 1 "img" with classes := ["lazy"], dataSrc := some "a.png" } .nil
          (.node { createElement 2 "img" with classes := ["lazy"], dataSrc := some "b.png" }
            .nil .nil)))
      = ⟨.node { createElement 1 "img" with src := some "a.png", dataSrc := some "a.png" } .nil
          (.node { createElement 2 "img" with classes := ["lazy"], dataSrc := some "b.png" }
            .nil .nil), [2]⟩ ∧
    (lazyCallback [⟨1, true⟩, ⟨2, false⟩]
      (setupLazyLoading
        (.node { createElement 1 "img" with classes := ["lazy"], dataSrc := some "a.png" } .nil
          (.node { createElement 2 "img" with classes := ["lazy"], dataSrc := some "b.png" }
            .nil .nil)))).doc.first (isNode 2)
      = some { createElement 2 "img" with classes := ["lazy"], dataSrc := some "b.png" } := by
  refine ⟨by decide, ?_⟩
  have h := (lazy_loader_contract [⟨1, true⟩, ⟨2, false⟩]
    (setupLazyLoading
        (.node { createElement 1 "img" with classes := ["lazy"], dataSrc := some "a.png" } .nil
          (.node { createElement 2 "img" with classes := ["lazy"], dataSrc := some "b.png" }
            .nil .nil))) 2).2.1 (by decide)
  rw [h.1]
  decide

/-! ## Smooth scrolling -/

/-- C7 at the bare `#`: the click listener calls `preventDefault`, then
`document.querySelector('#')` throws a `SyntaxError`, which nothing catches;
no scroll is requested. -/
theorem anchorClick_bare_hash_throws (doc : Forest) (s : ClickSt) :
    onAnchorClick "#" doc s
      = some { event := s.event ++ [.preventDefault], scrolls := s.scrolls, uncaught := true } := by
  rfl

/-- For an `href` that is `#` followed by an identifier, the click listener
calls `preventDefault`, raises no error, and requests a smooth scroll to the
start of the first element with that id exactly when there is one. -/
theorem anchorClick_id (name : String) (doc : Forest) (s : ClickSt)
    (h1 : name.toList.all isNameChar = true) (h2 : startsIdent name.toList = true) :
    onAnchorClick ("#" ++ name) doc s
      = some (match doc.first (hasId name) with
          | some target =>
            { event := s.event ++ [.preventDefault],
              scrolls := s.scrolls ++ [(target.nid, "smooth", "start")],
              uncaught := s.uncaught }
          | none =>
            { event := s.event ++ [.preventDefault], scrolls := s.scrolls,
              uncaught := s.uncaught }) := by
  have hl : ("#" ++ name).toList = '#' :: name.toList := by
    simp [String.toList]
  have hn : String.mk name.toList = name := rfl
  simp only [onAnchorClick, querySelector, hl, h1, h2, if_true, hn]
  cases doc.first (hasId name) <;> rfl

/-- The spec's example `#missing` in a document without such an element: no
scroll, no error. -/
theorem anchorClick_id_witness :
    onAnchorClick "#missing" .nil ⟨[], [], false⟩ = some ⟨[.preventDefault], [], false⟩ := by
  have h := anchorClick_id "missing" .nil ⟨[], [], false⟩ (by decide) (by decide)
  simpa [Forest.first] using h

/-! ## Evaluations -/

example : classTokens "loading-overlay" = ["loading-overlay"] := by decide
example : classTokens "toast show bg-info text-white" = ["toast", "show", "bg-info", "text-white"] := by decide
example : classTokens " a  b a " = ["a", "b"] := by decide
example : jsLength "ab" = 2 := by decide
example : jsLength "😀" = 2 := by decide
example : jsLength "é" = 1 := by decide

example : overlayCount (Page.run [.performSearch "ab", .performSearch "cd"] (Page.init .nil 1 "")) = 2 := by
  decide
example : overlayCount (Page.run [.performSearch "ab", .performSearch "cd", .tick 500, .fire 1, .fire 2]
    (Page.init .nil 1 "")) = 0 := by
  decide
example : (Page.run [.showToast "x" (some "danger") (some 1000) .nil] (Page.init .nil 1 "")).st.doc
    = .node (containerElem 1) (.node (toastElem 2 "x" "danger") .nil .nil) .nil := by
  decide

example : (debounceRun 300 [(0, "a"), (100, "b"), (200, "c")] 1000).st.executed = [(500, "c")] := by
  decide

example : (debounceRun 300 [(0, "a"), (100, "b"), (200, "c")] 499).st.executed = [] := by
  decide

example : (debounceRun 300 [(0, "a"), (400, "b")] 1000).st.executed = [(300, "a"), (700, "b")] := by
  decide

example : (throttleRun 200
    [(0, "a", false), (50, "b", false), (150, "c", false), (250, "d", false)]).st.executed
    = [(0, "a"), (250, "d")] := by
  decide

end EventHub
